import Mathlib

/-!
# A verification development for the CSS parser of `go-css` (`parser.go`)

The file embeds the token classifier and the single-pass state machine
`parse` of `parser.go` and proves properties of them.

Modelling conventions.

* Go `map[string]T` values are association lists with unique keys, kept in
  insertion order (`mapGet`, `mapSet`).  Go fixes no iteration order, so only
  the key/value content of such a list is meaningful.
* A Go map is a reference.  `parse` stores the very same `styles` object under
  several rules and keeps mutating it while the block-end loop runs, so the
  inner maps live in an explicit heap (`ParseState.heap`) and the stylesheet
  `css` stores references into it.  The value handed back to the caller is the
  stylesheet with all references resolved (`ParseState.output`).
* `*list.List` is a Lean list consumed from the front.
* Go `int` line numbers are `Int`; `fmt.Errorf("line %d: ...")` is string
  concatenation with the decimal rendering of the line.
-/

namespace Css

/-! ## Data model -/

/-- The constants of `tokenType` (parser.go, lines 14-25). -/
inductive tokenType where
  | tokenFirstToken
  | tokenBlockStart
  | tokenBlockEnd
  | tokenRuleName
  | tokenValue
  | tokenSelector
  | tokenStyleSeparator
  | tokenStatementEnd
  deriving DecidableEq, Repr

/-- Token kinds of the external scanner package `gorilla/css/scanner`.  The
parser only ever compares a kind with `TokenS` (white space) and `TokenEOF`. -/
inductive ScannerTokenType where
  | TokenError
  | TokenEOF
  | TokenIdent
  | TokenAtKeyword
  | TokenString
  | TokenHash
  | TokenNumber
  | TokenPercentage
  | TokenDimension
  | TokenURI
  | TokenUnicodeRange
  | TokenCDO
  | TokenCDC
  | TokenS
  | TokenComment
  | TokenFunction
  | TokenIncludes
  | TokenDashMatch
  | TokenPrefixMatch
  | TokenSuffixMatch
  | TokenSubstringMatch
  | TokenChar
  | TokenBOM
  deriving DecidableEq, Repr

/-- The fields of `scanner.Token` that the parser reads: `Type`, `Value` and
`Line`. -/
structure Token where
  typ : ScannerTokenType
  value : String
  line : Int
  deriving DecidableEq, Repr

/-- The struct `tokenEntry` (parser.go, lines 30-33); `token` is the
dereferenced, non-nil `*scanner.Token`. -/
structure tokenEntry where
  value : String
  token : Token
  deriving DecidableEq, Repr

/-- A Go `map[string]string` of one block: property name to raw value. -/
abbrev StyleMap := List (String × String)

/-- The result type `map[Rule]map[string]string` with all inner maps resolved. -/
abbrev Stylesheet := List (String × StyleMap)

/-! ## Go map operations on association lists -/

/-- Go `v, ok := m[k]`: the value stored under `k`, if any. -/
def mapGet {β : Type} : List (String × β) → String → Option β
  | [], _ => none
  | (k, v) :: m, key => if k = key then some v else mapGet m key

/-- Go `m[k] = v`: overwrite the entry of `k` in place, or add a new entry. -/
def mapSet {β : Type} : List (String × β) → String → β → List (String × β)
  | [], key, val => [(key, val)]
  | (k, v) :: m, key, val =>
    if k = key then (k, val) :: m else (k, v) :: mapSet m key val

/-- The keys of a Go map. -/
def mapKeys {β : Type} (m : List (String × β)) : List String :=
  m.map Prod.fst

/-! ## Token classifier -/

/-- The function `newTokenType` (parser.go, lines 86-100). -/
def newTokenType (typ : String) : tokenType :=
  if typ = "\x7b" then tokenType.tokenBlockStart
  else if typ = "\x7d" then tokenType.tokenBlockEnd
  else if typ = ":" then tokenType.tokenStyleSeparator
  else if typ = ";" then tokenType.tokenStatementEnd
  else if typ = "." ∨ typ = "#" then tokenType.tokenSelector
  else tokenType.tokenValue

/-- The method `tokenEntry.typ` (parser.go, lines 50-52). -/
def tokenEntry.typ (e : tokenEntry) : tokenType :=
  newTokenType e.value

/-! ## Parser state machine -/

/-- The local variables of `parse` (parser.go, lines 135-150).  `css` maps a
rule to a reference to its style map, `styles` is the reference held by the
variable `styles`, and `heap` holds the map objects allocated so far. -/
structure ParseState where
  rule : List String
  style : String
  value : String
  selector : String
  isBlock : Bool
  css : List (String × Nat)
  styles : Nat
  heap : List StyleMap
  prevToken : tokenType
  deriving DecidableEq, Repr

/-- The state before the loop: `css` and `styles` are two fresh empty maps and
`prevToken` is `tokenFirstToken`. -/
def ParseState.init : ParseState :=
  { rule := [], style := "", value := "", selector := "", isBlock := false,
    css := [], styles := 0, heap := [[]],
    prevToken := tokenType.tokenFirstToken }

/-- The map object behind a reference. -/
def deref (heap : List StyleMap) (ref : Nat) : StyleMap :=
  heap.getD ref []

/-- The stylesheet as the caller of `parse` sees it. -/
def resolve (heap : List StyleMap) (css : List (String × Nat)) : Stylesheet :=
  css.map (fun e => (e.1, deref heap e.2))

/-- The returned `css` of a state. -/
def ParseState.output (st : ParseState) : Stylesheet :=
  resolve st.heap st.css

/-- The merge loop (parser.go, lines 199-203): every entry of `oldRule` whose
key is absent from `styles` is copied into `styles`. -/
def mergeInto (oldRule : StyleMap) (styles : StyleMap) : StyleMap :=
  oldRule.foldl
    (fun acc e => match mapGet acc e.1 with
      | some _ => acc
      | none => mapSet acc e.1 e.2)
    styles

/-- One iteration of `for i := range rule` (parser.go, lines 196-205) for the
rule name `r`: merge an existing entry into the object `styles`, then store
the reference `styles` under `r`. -/
def closeRule (styles : Nat) (acc : List (String × Nat) × List StyleMap)
    (r : String) : List (String × Nat) × List StyleMap :=
  let heap1 := match mapGet acc.1 r with
    | some oldRule => acc.2.set styles (mergeInto (deref acc.2 oldRule) (deref acc.2 styles))
    | none => acc.2
  (mapSet acc.1 r styles, heap1)

/-- The text of an error built by `fmt.Errorf("line %d: " + msg, line)`. -/
def lineError (line : Int) (msg : String) : String :=
  "line " ++ toString line ++ ": " ++ msg

/-- The body of the `switch typ` statement together with the update of
`prevToken` (parser.go, lines 161-212) for a token that is not white space. -/
def step (st : ParseState) (token : tokenEntry) : Except String ParseState :=
  let typ := token.typ
  let next : Except String ParseState :=
    match typ with
    | tokenType.tokenValue =>
      match st.prevToken with
      | tokenType.tokenFirstToken => .ok { st with rule := st.rule ++ [token.value] }
      | tokenType.tokenBlockEnd => .ok { st with rule := st.rule ++ [token.value] }
      | tokenType.tokenSelector => .ok { st with rule := st.rule ++ [st.selector ++ token.value] }
      | tokenType.tokenBlockStart => .ok { st with style := token.value }
      | tokenType.tokenStatementEnd => .ok { st with style := token.value }
      | tokenType.tokenStyleSeparator => .ok { st with value := token.value }
      | tokenType.tokenValue => .ok { st with rule := st.rule ++ [token.value] }
      | _ => .error (lineError token.token.line "invalid syntax")
    | tokenType.tokenSelector => .ok { st with selector := token.value }
    | tokenType.tokenBlockStart =>
      if st.prevToken ≠ tokenType.tokenValue then
        .error (lineError token.token.line "block is missing rule identifier")
      else .ok { st with isBlock := true }
    | tokenType.tokenStatementEnd =>
      if st.prevToken ≠ tokenType.tokenValue ∨ st.style = "" ∨ st.value = "" then
        .error (lineError token.token.line "expected style before semicolon")
      else
        .ok { st with heap := st.heap.set st.styles (mapSet (deref st.heap st.styles) st.style st.value) }
    | tokenType.tokenBlockEnd =>
      if !st.isBlock then
        .error (lineError token.token.line "rule block ends without a beginning")
      else
        let r := st.rule.foldl (closeRule st.styles) (st.css, st.heap)
        .ok { st with css := r.1, heap := r.2 ++ [[]], styles := r.2.length,
                      style := "", value := "", isBlock := false }
    | _ => .ok st
  match next with
  | .ok st1 => .ok { st1 with prevToken := token.typ }
  | .error e => .error e

/-- The loop of `parse` (parser.go, lines 152-213) started in state `st`:
tokens are taken from the front; a white-space token is skipped without
touching the state; the first error stops the loop. -/
def run : ParseState → List tokenEntry → ParseState × Option String
  | st, [] => (st, none)
  | st, token :: l =>
    if token.token.typ = ScannerTokenType.TokenS then run st l
    else match step st token with
      | .ok st1 => run st1 l
      | .error e => (st, some e)

/-- The function `parse` (parser.go, lines 133-215): the stylesheet built so
far and the error, if any. -/
def parse (l : List tokenEntry) : Stylesheet × Option String :=
  let r := run ParseState.init l
  (r.1.output, r.2)

/-- A scanner token of kind `k` with text `v` on line `n`, as `tokenizer.next`
wraps it (parser.go, lines 64-67). -/
def mkEntry (k : ScannerTokenType) (n : Int) (v : String) : tokenEntry :=
  { value := v, token := { typ := k, value := v, line := n } }

/-! ## Vocabulary of the statements -/

/-- Whether the scanner classified the token as white space (`scanner.TokenS`),
the test of parser.go line 157. -/
def isSpace (t : tokenEntry) : Bool :=
  decide (t.token.typ = ScannerTokenType.TokenS)

/-- The texts of the tokens of `l` that are not white space, in order. -/
def texts (l : List tokenEntry) : List String :=
  (l.filter (fun t => !isSpace t)).map (fun t => t.value)

/-- The state machine run on bare token texts: `step` applied to each text in
turn, `none` as soon as a step fails.  It forgets line numbers, which only
show up in error messages. -/
def runTexts : ParseState → List String → Option ParseState
  | st, [] => some st
  | st, v :: vs =>
    match step st (mkEntry ScannerTokenType.TokenIdent 0 v) with
    | .ok st1 => runTexts st1 vs
    | .error _ => none

/-- The tokens of the text `a { x: 1; }` (all on line 1), white space
included. -/
def exSingle : List tokenEntry :=
  [mkEntry ScannerTokenType.TokenIdent 1 "a", mkEntry ScannerTokenType.TokenS 1 " ",
   mkEntry ScannerTokenType.TokenChar 1 "\x7b", mkEntry ScannerTokenType.TokenS 1 " ",
   mkEntry ScannerTokenType.TokenIdent 1 "x", mkEntry ScannerTokenType.TokenChar 1 ":",
   mkEntry ScannerTokenType.TokenS 1 " ", mkEntry ScannerTokenType.TokenNumber 1 "1",
   mkEntry ScannerTokenType.TokenChar 1 ";", mkEntry ScannerTokenType.TokenS 1 " ",
   mkEntry ScannerTokenType.TokenChar 1 "\x7d"]

/-- The tokens of the text `a { x: 1; } b { y: 2; }`, white space included. -/
def exTwoBlocks : List tokenEntry :=
  exSingle ++
  [mkEntry ScannerTokenType.TokenS 1 " ",
   mkEntry ScannerTokenType.TokenIdent 1 "b", mkEntry ScannerTokenType.TokenS 1 " ",
   mkEntry ScannerTokenType.TokenChar 1 "\x7b", mkEntry ScannerTokenType.TokenS 1 " ",
   mkEntry ScannerTokenType.TokenIdent 1 "y", mkEntry ScannerTokenType.TokenChar 1 ":",
   mkEntry ScannerTokenType.TokenS 1 " ", mkEntry ScannerTokenType.TokenNumber 1 "2",
   mkEntry ScannerTokenType.TokenChar 1 ";", mkEntry ScannerTokenType.TokenS 1 " ",
   mkEntry ScannerTokenType.TokenChar 1 "\x7d"]

/-- The tokens of the text `a b { x: 1; }`, white space included. -/
def exMulti : List tokenEntry :=
  [mkEntry ScannerTokenType.TokenIdent 1 "a", mkEntry ScannerTokenType.TokenS 1 " ",
   mkEntry ScannerTokenType.TokenIdent 1 "b", mkEntry ScannerTokenType.TokenS 1 " ",
   mkEntry ScannerTokenType.TokenChar 1 "\x7b", mkEntry ScannerTokenType.TokenS 1 " ",
   mkEntry ScannerTokenType.TokenIdent 1 "x", mkEntry ScannerTokenType.TokenChar 1 ":",
   mkEntry ScannerTokenType.TokenS 1 " ", mkEntry ScannerTokenType.TokenNumber 1 "1",
   mkEntry ScannerTokenType.TokenChar 1 ";", mkEntry ScannerTokenType.TokenS 1 " ",
   mkEntry ScannerTokenType.TokenChar 1 "\x7d"]

/-- The four messages that `parse` can attach to a line number. -/
def errorMessages : List String :=
  ["invalid syntax", "block is missing rule identifier",
   "expected style before semicolon", "rule block ends without a beginning"]

/-- The tokens of the text `a {\n x 1;\n}`, white space included, with the
line on which each token starts. -/
def exMissingColon : List tokenEntry :=
  [mkEntry ScannerTokenType.TokenIdent 1 "a", mkEntry ScannerTokenType.TokenS 1 " ",
   mkEntry ScannerTokenType.TokenChar 1 "\x7b", mkEntry ScannerTokenType.TokenS 1 "\n ",
   mkEntry ScannerTokenType.TokenIdent 2 "x", mkEntry ScannerTokenType.TokenS 2 " ",
   mkEntry ScannerTokenType.TokenNumber 2 "1", mkEntry ScannerTokenType.TokenChar 2 ";",
   mkEntry ScannerTokenType.TokenS 2 "\n", mkEntry ScannerTokenType.TokenChar 3 "\x7d"]

/-- The kind of the last non-white-space token among the texts `vs`, the
sentinel `tokenFirstToken` when there is none. -/
def lastKind (vs : List String) : tokenType :=
  match vs.getLast? with
  | none => tokenType.tokenFirstToken
  | some v => newTokenType v

/-- The texts that come after the last `}` of `vs` (all of `vs` when it has
no `}`). -/
def sinceClose (vs : List String) : List String :=
  (vs.reverse.takeWhile (fun v => v ≠ "\x7d")).reverse

/-- Well-formedness of the references of a state: the object `styles` is
allocated and every reference stored in `css` is older than `styles`. -/
def HeapOk (st : ParseState) : Prop :=
  st.styles < st.heap.length ∧ ∀ e ∈ st.css, e.2 < st.styles

/-- A well-formed declaration `p : v ;`: both texts are of kind Value and
non-empty. -/
def wellFormedDecl (d : String × String) : Bool :=
  decide (newTokenType d.1 = tokenType.tokenValue) && decide (newTokenType d.2 = tokenType.tokenValue)
    && decide (d.1 ≠ "") && decide (d.2 ≠ "")

/-- The token texts `p : v ;` of a list of declarations. -/
def declTexts : List (String × String) → List String
  | [] => []
  | d :: D => d.1 :: ":" :: d.2 :: ";" :: declTexts D

/-- The value of the last declaration of property `q` in `D`, if `D`
declares `q`. -/
def lastDecl (D : List (String × String)) (q : String) : Option String :=
  (D.reverse.find? (fun d => d.1 = q)).map Prod.snd

/-- Whether some non-empty text of kind Value directly follows a text whose
kind satisfies `ks`. -/
def valueAfter (ks : tokenType → Bool) : List String → Bool
  | a :: b :: rest =>
    (ks (newTokenType a) && decide (newTokenType b = tokenType.tokenValue) && decide (b ≠ ""))
      || valueAfter ks (b :: rest)
  | _ => false

/-- The kinds after which a Value token is read as a property name: `{` and
`;`. -/
def opensDecl (k : tokenType) : Bool :=
  decide (k = tokenType.tokenBlockStart) || decide (k = tokenType.tokenStatementEnd)

/-- The kind after which a Value token is read as a property value: `:`. -/
def opensValue (k : tokenType) : Bool :=
  decide (k = tokenType.tokenStyleSeparator)

/-- Whether the last three texts are (Value, `:`, Value). -/
def endsWithPair (vs : List String) : Bool :=
  match vs.reverse with
  | c :: b :: a :: _ =>
    decide (newTokenType a = tokenType.tokenValue) && decide (b = ":")
      && decide (newTokenType c = tokenType.tokenValue)
  | _ => false

/-- The tokens of `a { x : : 1`, a first declaration with a doubled colon. -/
def exDoubleColon : List tokenEntry :=
  ["a", "\x7b", "x", ":", ":", "1"].map (mkEntry ScannerTokenType.TokenChar 1)

/-- The tokens of `a { x : 1 ; y`, a second declaration without a value. -/
def exStale : List tokenEntry :=
  ["a", "\x7b", "x", ":", "1", ";", "y"].map (mkEntry ScannerTokenType.TokenChar 1)

/-- The tokens of the text `a { x: 1; } a { x: 2; }`. -/
def exConflict : List tokenEntry :=
  exSingle ++
  [mkEntry ScannerTokenType.TokenS 1 " ",
   mkEntry ScannerTokenType.TokenIdent 1 "a", mkEntry ScannerTokenType.TokenS 1 " ",
   mkEntry ScannerTokenType.TokenChar 1 "\x7b", mkEntry ScannerTokenType.TokenS 1 " ",
   mkEntry ScannerTokenType.TokenIdent 1 "x", mkEntry ScannerTokenType.TokenChar 1 ":",
   mkEntry ScannerTokenType.TokenS 1 " ", mkEntry ScannerTokenType.TokenNumber 1 "2",
   mkEntry ScannerTokenType.TokenChar 1 ";", mkEntry ScannerTokenType.TokenS 1 " ",
   mkEntry ScannerTokenType.TokenChar 1 "\x7d"]

/-- The tokens of the text `a { x: 1; } a { y: 2; }`. -/
def exDisjoint : List tokenEntry :=
  exSingle ++
  [mkEntry ScannerTokenType.TokenS 1 " ",
   mkEntry ScannerTokenType.TokenIdent 1 "a", mkEntry ScannerTokenType.TokenS 1 " ",
   mkEntry ScannerTokenType.TokenChar 1 "\x7b", mkEntry ScannerTokenType.TokenS 1 " ",
   mkEntry ScannerTokenType.TokenIdent 1 "y", mkEntry ScannerTokenType.TokenChar 1 ":",
   mkEntry ScannerTokenType.TokenS 1 " ", mkEntry ScannerTokenType.TokenNumber 1 "2",
   mkEntry ScannerTokenType.TokenChar 1 ";", mkEntry ScannerTokenType.TokenS 1 " ",
   mkEntry ScannerTokenType.TokenChar 1 "\x7d"]

/-- The tokens of the unterminated text `a { x: 1;`. -/
def exUnterminated : List tokenEntry :=
  exSingle.take 9

/-- Go `strings.HasPrefix(s, pre)`: whether `s` begins with `pre`. -/
def startsWith (s pre : String) : Bool :=
  pre.data.isPrefixOf s.data

/-- The method `Type` of `Rule` (parser.go, lines 39-48); `Rule` is a string
type, and `Type` is a reserved word here, hence the name. -/
def RuleType (rule : String) : String :=
  if startsWith rule "." then "class"
  else if startsWith rule "#" then "id"
  else "tag"

/-- The body of `tokenizer.next` (parser.go, lines 54-68) applied to the
result `token` of `t.s.Next()`, `none` standing for a nil token. -/
def tokenizerNext (token : Option Token) : Except String tokenEntry :=
  match token with
  | none => .error "EOF"
  | some tok =>
    if tok.typ = ScannerTokenType.TokenEOF then .error "EOF"
    else .ok { value := tok.value, token := tok }

/-- The loop of `buildList` (parser.go, lines 114-122).  The scanner is the
list of tokens that successive calls of `Next()` return, nil once the list is
exhausted; `l` is the queue built so far.  `next` never returns a nil entry,
so every entry is pushed. -/
def buildLoop : List Token → List tokenEntry → List tokenEntry
  | [], l =>
    match tokenizerNext none with
    | .error _ => l
    | .ok token => l ++ [token]
  | tok :: s, l =>
    match tokenizerNext (some tok) with
    | .error _ => l
    | .ok token => buildLoop s (l ++ [token])

/-- The function `buildList` (parser.go, lines 111-130) on the token stream
of the scanner. -/
def buildList (s : List Token) : List tokenEntry :=
  buildLoop s []

/-- The function `Unmarshal` (parser.go, lines 219-221) on the token stream
that the scanner yields for the byte slice. -/
def Unmarshal (s : List Token) : Stylesheet × Option String :=
  parse (buildList s)

/-- The entry that wraps a raw token. -/
def wrap (tok : Token) : tokenEntry :=
  { value := tok.value, token := tok }

/-- The raw tokens that precede the end marker. -/
def beforeEOF (s : List Token) : List Token :=
  s.takeWhile (fun tok => decide (tok.typ ≠ ScannerTokenType.TokenEOF))

/-- The raw tokens of `a b` followed by the end marker. -/
def exSource : List Token :=
  [{ typ := ScannerTokenType.TokenIdent, value := "a", line := 1 },
   { typ := ScannerTokenType.TokenS, value := " ", line := 1 },
   { typ := ScannerTokenType.TokenIdent, value := "b", line := 1 },
   { typ := ScannerTokenType.TokenEOF, value := "", line := 1 }]

/-- The tokens of the unterminated text `b { y: 2;`. -/
def exOpenBlock : List tokenEntry :=
  [mkEntry ScannerTokenType.TokenIdent 2 "b", mkEntry ScannerTokenType.TokenS 2 " ",
   mkEntry ScannerTokenType.TokenChar 2 "\x7b", mkEntry ScannerTokenType.TokenS 2 " ",
   mkEntry ScannerTokenType.TokenIdent 2 "y", mkEntry ScannerTokenType.TokenChar 2 ":",
   mkEntry ScannerTokenType.TokenS 2 " ", mkEntry ScannerTokenType.TokenNumber 2 "2",
   mkEntry ScannerTokenType.TokenChar 2 ";"]

/-- The tokens of the text `.foo { x: 1; }`. -/
def exClass : List tokenEntry :=
  [mkEntry ScannerTokenType.TokenChar 1 ".", mkEntry ScannerTokenType.TokenIdent 1 "foo",
   mkEntry ScannerTokenType.TokenS 1 " ",
   mkEntry ScannerTokenType.TokenChar 1 "\x7b", mkEntry ScannerTokenType.TokenS 1 " ",
   mkEntry ScannerTokenType.TokenIdent 1 "x", mkEntry ScannerTokenType.TokenChar 1 ":",
   mkEntry ScannerTokenType.TokenS 1 " ", mkEntry ScannerTokenType.TokenNumber 1 "1",
   mkEntry ScannerTokenType.TokenChar 1 ";", mkEntry ScannerTokenType.TokenS 1 " ",
   mkEntry ScannerTokenType.TokenChar 1 "\x7d"]

/-- The tokens of the text `a { margin: 0 auto; }`. -/
def exTwoValues : List tokenEntry :=
  [mkEntry ScannerTokenType.TokenIdent 1 "a", mkEntry ScannerTokenType.TokenS 1 " ",
   mkEntry ScannerTokenType.TokenChar 1 "\x7b", mkEntry ScannerTokenType.TokenS 1 " ",
   mkEntry ScannerTokenType.TokenIdent 1 "margin", mkEntry ScannerTokenType.TokenChar 1 ":",
   mkEntry ScannerTokenType.TokenS 1 " ", mkEntry ScannerTokenType.TokenNumber 1 "0",
   mkEntry ScannerTokenType.TokenS 1 " ", mkEntry ScannerTokenType.TokenIdent 1 "auto",
   mkEntry ScannerTokenType.TokenChar 1 ";", mkEntry ScannerTokenType.TokenS 1 " ",
   mkEntry ScannerTokenType.TokenChar 1 "\x7d"]

/-- The tokens of the text `a { x: 1; x: 2; }`. -/
def exOverwrite : List tokenEntry :=
  [mkEntry ScannerTokenType.TokenIdent 1 "a", mkEntry ScannerTokenType.TokenS 1 " ",
   mkEntry ScannerTokenType.TokenChar 1 "\x7b", mkEntry ScannerTokenType.TokenS 1 " ",
   mkEntry ScannerTokenType.TokenIdent 1 "x", mkEntry ScannerTokenType.TokenChar 1 ":",
   mkEntry ScannerTokenType.TokenS 1 " ", mkEntry ScannerTokenType.TokenNumber 1 "1",
   mkEntry ScannerTokenType.TokenChar 1 ";", mkEntry ScannerTokenType.TokenS 1 " ",
   mkEntry ScannerTokenType.TokenIdent 1 "x", mkEntry ScannerTokenType.TokenChar 1 ":",
   mkEntry ScannerTokenType.TokenS 1 " ", mkEntry ScannerTokenType.TokenNumber 1 "2",
   mkEntry ScannerTokenType.TokenChar 1 ";", mkEntry ScannerTokenType.TokenS 1 " ",
   mkEntry ScannerTokenType.TokenChar 1 "\x7d"]

/-- The three messages of the errors that `parse` can actually return. -/
def reachableMessages : List String :=
  ["block is missing rule identifier", "expected style before semicolon",
   "rule block ends without a beginning"]

/-- The seven kinds that the previous-kind state can hold. -/
def prevKinds : List tokenType :=
  [tokenType.tokenFirstToken, tokenType.tokenBlockStart, tokenType.tokenBlockEnd,
   tokenType.tokenValue, tokenType.tokenSelector, tokenType.tokenStyleSeparator,
   tokenType.tokenStatementEnd]

/-- Every rule of the stylesheet is among the pending selectors, and all
rules refer to one and the same map object. -/
def RuleInv (st : ParseState) : Prop :=
  (∀ q ref, mapGet st.css q = some ref → q ∈ st.rule) ∧
  (∀ q1 q2 r1 r2, mapGet st.css q1 = some r1 → mapGet st.css q2 = some r2 → r1 = r2)

/-- The tokens of the text `a { x: 1; } .b c { y: 2; } d {`. -/
def exThreeRules : List tokenEntry :=
  exSingle ++
  [mkEntry ScannerTokenType.TokenS 1 " ",
   mkEntry ScannerTokenType.TokenChar 1 ".", mkEntry ScannerTokenType.TokenIdent 1 "b",
   mkEntry ScannerTokenType.TokenS 1 " ", mkEntry ScannerTokenType.TokenIdent 1 "c",
   mkEntry ScannerTokenType.TokenS 1 " ",
   mkEntry ScannerTokenType.TokenChar 1 "\x7b", mkEntry ScannerTokenType.TokenS 1 " ",
   mkEntry ScannerTokenType.TokenIdent 1 "y", mkEntry ScannerTokenType.TokenChar 1 ":",
   mkEntry ScannerTokenType.TokenS 1 " ", mkEntry ScannerTokenType.TokenNumber 1 "2",
   mkEntry ScannerTokenType.TokenChar 1 ";", mkEntry ScannerTokenType.TokenS 1 " ",
   mkEntry ScannerTokenType.TokenChar 1 "\x7d", mkEntry ScannerTokenType.TokenS 1 " ",
   mkEntry ScannerTokenType.TokenIdent 1 "d", mkEntry ScannerTokenType.TokenS 1 " ",
   mkEntry ScannerTokenType.TokenChar 1 "\x7b"]

/-! ## Basic facts about the classifier and the loop -/

theorem newTokenType_lbrace : newTokenType "\x7b" = tokenType.tokenBlockStart := by decide

theorem newTokenType_rbrace : newTokenType "\x7d" = tokenType.tokenBlockEnd := by decide

theorem newTokenType_colon : newTokenType ":" = tokenType.tokenStyleSeparator := by decide

theorem newTokenType_semi : newTokenType ";" = tokenType.tokenStatementEnd := by decide

/-- Whether a step succeeds, and the state it yields, depends on the text of
the token only. -/
theorem step_ok_iff_mkEntry (st st1 : ParseState) (t : tokenEntry)
    (k : ScannerTokenType) (n : Int) :
    step st t = .ok st1 ↔ step st (mkEntry k n t.value) = .ok st1 := by
  unfold step
  simp only [tokenEntry.typ, mkEntry]
  cases newTokenType t.value <;> cases st.prevToken <;> simp <;> split_ifs <;> simp

/-- A successful run on the texts is a successful run of the loop. -/
theorem run_of_runTexts (l : List tokenEntry) (st st1 : ParseState)
    (h : runTexts st (texts l) = some st1) : run st l = (st1, none) := by
  induction l generalizing st with
  | nil => simp [texts, runTexts] at h; simp [run, h]
  | cons t l ih =>
    by_cases hs : t.token.typ = ScannerTokenType.TokenS
    · have : texts (t :: l) = texts l := by simp [texts, isSpace, hs]
      rw [this] at h
      simp [run, hs, ih st h]
    · have : texts (t :: l) = t.value :: texts l := by simp [texts, isSpace, hs]
      rw [this] at h
      simp only [runTexts] at h
      simp only [run, hs, if_false]
      cases hst : step st (mkEntry ScannerTokenType.TokenIdent 0 t.value) with
      | error e => simp [hst] at h
      | ok s2 =>
        rw [(step_ok_iff_mkEntry st s2 t _ _).mpr hst]
        simp only [hst] at h
        exact ih s2 h

/-! ## Single blocks -/

/-- Claim C1.  For texts `s`, `p`, `v` of kind Value with `p` and `v` non-empty,
every token sequence whose non-white-space texts are `s { p : v ; }` parses
without error into the stylesheet with the single rule `s`, whose style map is
exactly `{p: v}`. -/
theorem parse_single_block (s p v : String)
    (hs : newTokenType s = tokenType.tokenValue)
    (hp : newTokenType p = tokenType.tokenValue)
    (hv : newTokenType v = tokenType.tokenValue)
    (hp0 : p ≠ "") (hv0 : v ≠ "")
    (l : List tokenEntry)
    (hl : texts l = [s, "\x7b", p, ":", v, ";", "\x7d"]) :
    parse l = ([(s, [(p, v)])], none) := by
  have h : runTexts ParseState.init (texts l) = some
      { rule := [s], style := "", value := "", selector := "", isBlock := false,
        css := [(s, 0)], styles := 1, heap := [[(p, v)], []],
        prevToken := tokenType.tokenBlockEnd } := by
    rw [hl]
    simp [runTexts, step, mkEntry, tokenEntry.typ, hs, hp, hv, hp0, hv0, ParseState.init,
      newTokenType_lbrace, newTokenType_rbrace, newTokenType_colon, newTokenType_semi,
      closeRule, mapGet, mapSet, deref]
  simp [parse, run_of_runTexts l _ _ h, ParseState.output, resolve, deref]

/-- Claim C1 at the tokens of `a { x: 1; }`. -/
theorem parse_single_block_witness :
    texts exSingle = ["a", "\x7b", "x", ":", "1", ";", "\x7d"] ∧
    parse exSingle = ([("a", [("x", "1")])], none) :=
  ⟨by decide,
   parse_single_block "a" "x" "1" (by decide) (by decide) (by decide) (by decide) (by decide)
     exSingle (by decide)⟩

/-- Claim C2.  On the tokens of `a { x: 1; } b { y: 2; }` the parser returns no
error, but both rules are mapped to the union `{y: 2, x: 1}`: the selector `a`
of the closed first block is still pending when the second block closes, so
the result is not `a ↦ {x: 1}`, `b ↦ {y: 2}`. -/
theorem parse_two_blocks_leak :
    texts exTwoBlocks =
      ["a", "\x7b", "x", ":", "1", ";", "\x7d", "b", "\x7b", "y", ":", "2", ";", "\x7d"] ∧
    parse exTwoBlocks =
      ([("a", [("y", "2"), ("x", "1")]), ("b", [("y", "2"), ("x", "1")])], none) ∧
    mapGet (parse exTwoBlocks).1 "a" ≠ some [("x", "1")] ∧
    mapGet (parse exTwoBlocks).1 "b" ≠ some [("y", "2")] := by
  decide

/-- Claim C4.  For distinct Value texts `s1`, `s2` and non-empty Value texts
`p`, `v`, every token sequence whose non-white-space texts are
`s1 s2 { p : v ; }` parses without error into the stylesheet with exactly the
two rules `s1` and `s2`, each mapped to exactly `{p: v}`. -/
theorem parse_multi_selector (s1 s2 p v : String)
    (hs1 : newTokenType s1 = tokenType.tokenValue)
    (hs2 : newTokenType s2 = tokenType.tokenValue)
    (hne : s1 ≠ s2)
    (hp : newTokenType p = tokenType.tokenValue)
    (hv : newTokenType v = tokenType.tokenValue)
    (hp0 : p ≠ "") (hv0 : v ≠ "")
    (l : List tokenEntry)
    (hl : texts l = [s1, s2, "\x7b", p, ":", v, ";", "\x7d"]) :
    parse l = ([(s1, [(p, v)]), (s2, [(p, v)])], none) := by
  have h : runTexts ParseState.init (texts l) = some
      { rule := [s1, s2], style := "", value := "", selector := "", isBlock := false,
        css := [(s1, 0), (s2, 0)], styles := 1, heap := [[(p, v)], []],
        prevToken := tokenType.tokenBlockEnd } := by
    rw [hl]
    simp [runTexts, step, mkEntry, tokenEntry.typ, hs1, hs2, hne, hp, hv, hp0, hv0,
      ParseState.init, newTokenType_lbrace, newTokenType_rbrace, newTokenType_colon,
      newTokenType_semi, closeRule, mapGet, mapSet, deref]
  simp [parse, run_of_runTexts l _ _ h, ParseState.output, resolve, deref]

/-- Claim C4 at the tokens of `a b { x: 1; }`. -/
theorem parse_multi_selector_witness :
    texts exMulti = ["a", "b", "\x7b", "x", ":", "1", ";", "\x7d"] ∧
    parse exMulti = ([("a", [("x", "1")]), ("b", [("x", "1")])], none) :=
  ⟨by decide,
   parse_multi_selector "a" "b" "x" "1" (by decide) (by decide) (by decide) (by decide)
     (by decide) (by decide) (by decide) exMulti (by decide)⟩

/-! ## Sequencing runs and the shape of errors -/

theorem run_append (st : ParseState) (a b : List tokenEntry) :
    run st (a ++ b) =
      match (run st a).2 with
      | none => run (run st a).1 b
      | some _ => run st a := by
  induction a generalizing st with
  | nil => simp [run]
  | cons t a ih =>
    simp only [List.cons_append, run]
    by_cases hs : t.token.typ = ScannerTokenType.TokenS
    · simp only [hs, if_true]; exact ih st
    · simp only [hs, if_false]
      cases hst : step st t with
      | error e => simp
      | ok s1 => simp only []; exact ih s1

theorem run_append_ok (st st1 : ParseState) (a b : List tokenEntry)
    (h : run st a = (st1, none)) : run st (a ++ b) = run st1 b := by
  rw [run_append, h]

theorem run_append_error (st : ParseState) (a b : List tokenEntry) (e : String)
    (h : (run st a).2 = some e) : run st (a ++ b) = run st a := by
  rw [run_append, h]

theorem run_single (st : ParseState) (t : tokenEntry) :
    run st [t] =
      if isSpace t then (st, none)
      else match step st t with
        | .ok st1 => (st1, none)
        | .error e => (st, some e) := by
  by_cases hs : t.token.typ = ScannerTokenType.TokenS
  · simp [run, isSpace, hs]
  · simp only [run, isSpace, hs, if_false, decide_False]
    cases step st t <;> simp [run]

/-- The state in which an error is reported is the state before the failing
token. -/
theorem run_fst_of_error (st : ParseState) (P : List tokenEntry) (t : tokenEntry) (e : String)
    (hP : (run st P).2 = none) (h : (run st (P ++ [t])).2 = some e) :
    (run st (P ++ [t])).1 = (run st P).1 := by
  have hP1 : run st P = ((run st P).1, none) := by rw [← hP]
  rw [run_append_ok st _ P [t] hP1] at h ⊢
  rw [run_single] at h ⊢
  by_cases hs : isSpace t = true
  · simp [hs] at h
  · simp only [hs] at h ⊢
    cases hst : step (run st P).1 t with
    | ok s1 => simp [hst] at h
    | error e1 => simp

/-- The classifier has six possible results. -/
theorem newTokenType_cases (v : String) :
    newTokenType v = tokenType.tokenBlockStart ∨ newTokenType v = tokenType.tokenBlockEnd ∨
    newTokenType v = tokenType.tokenStyleSeparator ∨
    newTokenType v = tokenType.tokenStatementEnd ∨
    newTokenType v = tokenType.tokenSelector ∨ newTokenType v = tokenType.tokenValue := by
  unfold newTokenType
  split_ifs <;> simp

theorem step_blockStart (st : ParseState) (t : tokenEntry)
    (h : t.typ = tokenType.tokenBlockStart) :
    step st t =
      if st.prevToken = tokenType.tokenValue then
        .ok { st with isBlock := true, prevToken := tokenType.tokenBlockStart }
      else .error (lineError t.token.line "block is missing rule identifier") := by
  unfold step
  simp only [h]
  split_ifs <;> simp_all

theorem step_blockEnd (st : ParseState) (t : tokenEntry)
    (h : t.typ = tokenType.tokenBlockEnd) :
    step st t =
      if st.isBlock = true then
        .ok { st with
          css := (st.rule.foldl (closeRule st.styles) (st.css, st.heap)).1,
          heap := (st.rule.foldl (closeRule st.styles) (st.css, st.heap)).2 ++ [[]],
          styles := (st.rule.foldl (closeRule st.styles) (st.css, st.heap)).2.length,
          style := "", value := "", isBlock := false,
          prevToken := tokenType.tokenBlockEnd }
      else .error (lineError t.token.line "rule block ends without a beginning") := by
  unfold step
  simp only [h]
  split_ifs <;> simp_all

theorem step_statementEnd (st : ParseState) (t : tokenEntry)
    (h : t.typ = tokenType.tokenStatementEnd) :
    step st t =
      if st.prevToken = tokenType.tokenValue ∧ st.style ≠ "" ∧ st.value ≠ "" then
        .ok { st with
          heap := st.heap.set st.styles (mapSet (deref st.heap st.styles) st.style st.value),
          prevToken := tokenType.tokenStatementEnd }
      else .error (lineError t.token.line "expected style before semicolon") := by
  unfold step
  simp only [h]
  split_ifs <;> simp_all

theorem step_selector (st : ParseState) (t : tokenEntry)
    (h : t.typ = tokenType.tokenSelector) :
    step st t = .ok { st with selector := t.value, prevToken := tokenType.tokenSelector } := by
  unfold step
  simp only [h]

theorem step_styleSeparator (st : ParseState) (t : tokenEntry)
    (h : t.typ = tokenType.tokenStyleSeparator) :
    step st t = .ok { st with prevToken := tokenType.tokenStyleSeparator } := by
  unfold step
  simp only [h]

theorem step_value (st : ParseState) (t : tokenEntry)
    (h : t.typ = tokenType.tokenValue) :
    step st t =
      match st.prevToken with
      | tokenType.tokenFirstToken =>
        .ok { st with rule := st.rule ++ [t.value], prevToken := tokenType.tokenValue }
      | tokenType.tokenBlockEnd =>
        .ok { st with rule := st.rule ++ [t.value], prevToken := tokenType.tokenValue }
      | tokenType.tokenSelector =>
        .ok { st with rule := st.rule ++ [st.selector ++ t.value],
                      prevToken := tokenType.tokenValue }
      | tokenType.tokenBlockStart =>
        .ok { st with style := t.value, prevToken := tokenType.tokenValue }
      | tokenType.tokenStatementEnd =>
        .ok { st with style := t.value, prevToken := tokenType.tokenValue }
      | tokenType.tokenStyleSeparator =>
        .ok { st with value := t.value, prevToken := tokenType.tokenValue }
      | tokenType.tokenValue =>
        .ok { st with rule := st.rule ++ [t.value], prevToken := tokenType.tokenValue }
      | tokenType.tokenRuleName => .error (lineError t.token.line "invalid syntax") := by
  unfold step
  simp only [h]
  cases st.prevToken <;> simp

theorem step_error_form (st : ParseState) (t : tokenEntry) (e : String)
    (h : step st t = .error e) :
    ∃ msg, msg ∈ errorMessages ∧ e = lineError t.token.line msg := by
  rcases newTokenType_cases t.value with hk | hk | hk | hk | hk | hk
  · rw [step_blockStart st t hk] at h
    split_ifs at h
    exact ⟨"block is missing rule identifier", by simp [errorMessages], by simpa using h.symm⟩
  · rw [step_blockEnd st t hk] at h
    split_ifs at h
    exact ⟨"rule block ends without a beginning", by simp [errorMessages],
      by simpa using h.symm⟩
  · rw [step_styleSeparator st t hk] at h
    simp at h
  · rw [step_statementEnd st t hk] at h
    split_ifs at h
    exact ⟨"expected style before semicolon", by simp [errorMessages], by simpa using h.symm⟩
  · rw [step_selector st t hk] at h
    simp at h
  · rw [step_value st t hk] at h
    cases hp : st.prevToken <;> simp [hp] at h
    exact ⟨"invalid syntax", by simp [errorMessages], h.symm⟩

theorem run_error_position (st : ParseState) (l : List tokenEntry) (e : String)
    (h : (run st l).2 = some e) :
    ∃ k t msg, l[k]? = some t ∧ isSpace t = false ∧
      (run st (l.take k)).2 = none ∧ (run st (l.take (k + 1))).2 = some e ∧
      msg ∈ errorMessages ∧ e = lineError t.token.line msg := by
  induction l generalizing st with
  | nil => simp [run] at h
  | cons t l ih =>
    by_cases hs : t.token.typ = ScannerTokenType.TokenS
    · simp only [run, hs, if_true] at h
      obtain ⟨k, t1, msg, h1, h2, h3, h4, h5⟩ := ih st h
      exact ⟨k + 1, t1, msg, by simpa using h1, h2, by simpa [run, hs] using h3,
        by simpa [run, hs] using h4, h5⟩
    · simp only [run, hs, if_false] at h
      cases hst : step st t with
      | error e1 =>
        simp only [hst] at h
        obtain ⟨msg, hm, he⟩ := step_error_form st t e1 hst
        simp only [Option.some.injEq] at h
        subst h
        exact ⟨0, t, msg, by simp, by simp [isSpace, hs], by simp [run],
          by simp [run, hs, hst], hm, he⟩
      | ok s1 =>
        simp only [hst] at h
        obtain ⟨k, t1, msg, h1, h2, h3, h4, h5⟩ := ih s1 h
        exact ⟨k + 1, t1, msg, by simpa using h1, h2, by simpa [run, hs, hst] using h3,
          by simpa [run, hs, hst] using h4, h5⟩

/-! ## Errors -/

/-- Claim C6.  If `parse` succeeds on `P` with stylesheet `M` and fails on
`P ++ [t]` with error `e`, then for every continuation `R` it returns exactly
`(M, e)` on `P ++ [t] ++ R`: the entries committed before the error are
returned unchanged and nothing after the offending token has an effect. -/
theorem halt_at_first_error (P R : List tokenEntry) (t : tokenEntry) (M : Stylesheet)
    (e : String) (hP : parse P = (M, none)) (ht : (parse (P ++ [t])).2 = some e) :
    parse (P ++ [t] ++ R) = (M, some e) := by
  simp only [parse, Prod.mk.injEq] at hP ht ⊢
  rw [run_append_error _ (P ++ [t]) R e ht]
  refine ⟨?_, ht⟩
  rw [run_fst_of_error _ P t e hP.2 ht]
  exact hP.1

/-- Claim C6 at `P = a { x: 1; }`, the offending token `;` on line 2 and the
continuation `b { y: 2; }`. -/
theorem halt_at_first_error_witness :
    parse exSingle = ([("a", [("x", "1")])], none) ∧
    (parse (exSingle ++ [mkEntry ScannerTokenType.TokenChar 2 ";"])).2 =
      some "line 2: expected style before semicolon" ∧
    parse (exSingle ++ [mkEntry ScannerTokenType.TokenChar 2 ";"] ++ exTwoBlocks) =
      ([("a", [("x", "1")])], some "line 2: expected style before semicolon") :=
  ⟨by decide, by decide,
   halt_at_first_error exSingle exTwoBlocks (mkEntry ScannerTokenType.TokenChar 2 ";") _ _
     (by decide) (by decide)⟩

/-- Claim C7.  Whenever `parse` returns an error `e` there is a position `k`
holding a non-white-space token `t` such that the first `k` tokens parse
without error, the first `k + 1` tokens already fail with `e`, and `e` is
`"line N: "` followed by one of the four messages, `N` being the line of `t`. -/
theorem error_line_fidelity (l : List tokenEntry) (e : String)
    (h : (parse l).2 = some e) :
    ∃ k t msg, l[k]? = some t ∧ isSpace t = false ∧
      (parse (l.take k)).2 = none ∧ (parse (l.take (k + 1))).2 = some e ∧
      msg ∈ errorMessages ∧
      e = "line " ++ toString t.token.line ++ ": " ++ msg := by
  simpa [parse, lineError] using run_error_position ParseState.init l e h

/-- Claim C7 at the tokens of `a {\n x 1;\n}`: the error carries line 2. -/
theorem error_line_fidelity_witness :
    (parse exMissingColon).2 = some "line 2: expected style before semicolon" ∧
    ∃ k t msg, exMissingColon[k]? = some t ∧ isSpace t = false ∧
      (parse (exMissingColon.take k)).2 = none ∧
      (parse (exMissingColon.take (k + 1))).2 =
        some "line 2: expected style before semicolon" ∧
      msg ∈ errorMessages ∧
      "line 2: expected style before semicolon" = "line " ++ toString t.token.line ++ ": " ++ msg :=
  ⟨by decide, error_line_fidelity exMissingColon _ (by decide)⟩

/-! ## Invariants of successful runs -/

theorem newTokenType_eq_blockStart (v : String) :
    newTokenType v = tokenType.tokenBlockStart ↔ v = "\x7b" := by
  unfold newTokenType
  split_ifs <;> simp_all

theorem newTokenType_eq_blockEnd (v : String) :
    newTokenType v = tokenType.tokenBlockEnd ↔ v = "\x7d" := by
  unfold newTokenType
  split_ifs <;> simp_all

theorem texts_nil : texts [] = [] := rfl

theorem texts_append (a b : List tokenEntry) : texts (a ++ b) = texts a ++ texts b := by
  simp [texts]

theorem texts_single (t : tokenEntry) :
    texts [t] = if isSpace t then [] else [t.value] := by
  by_cases h : isSpace t = true <;> simp [texts, h]

theorem lastKind_concat (vs : List String) (v : String) :
    lastKind (vs ++ [v]) = newTokenType v := by
  simp [lastKind]

theorem sinceClose_concat (vs : List String) (v : String) :
    sinceClose (vs ++ [v]) = if v = "\x7d" then [] else sinceClose vs ++ [v] := by
  unfold sinceClose
  by_cases h : v = "\x7d" <;> simp [List.takeWhile, h]

/-- Decomposition of a successful run on `P ++ [t]`. -/
theorem run_concat_ok (st st1 : ParseState) (P : List tokenEntry) (t : tokenEntry)
    (h : run st (P ++ [t]) = (st1, none)) :
    ∃ st0, run st P = (st0, none) ∧
      ((isSpace t = true ∧ st1 = st0) ∨ (isSpace t = false ∧ step st0 t = .ok st1)) := by
  rw [run_append] at h
  cases hP : (run st P).2 with
  | some e => rw [hP] at h; simp only [] at h; rw [h] at hP; simp at hP
  | none =>
    rw [hP] at h
    simp only [] at h
    refine ⟨(run st P).1, by rw [← hP], ?_⟩
    rw [run_single] at h
    by_cases hs : isSpace t = true
    · left; simp [hs] at h; exact ⟨hs, h.symm⟩
    · right
      simp only [hs] at h
      cases hst : step (run st P).1 t with
      | error e => simp [hst] at h
      | ok s2 => simp [hst] at h; simp [hs, h]

/-- After a successful run the previous-kind state is the kind of the last
non-white-space token. -/
theorem run_prevToken (P : List tokenEntry) (st : ParseState)
    (h : run ParseState.init P = (st, none)) : st.prevToken = lastKind (texts P) := by
  induction P using List.reverseRecOn generalizing st with
  | nil => simp [run] at h; subst h; rfl
  | append_singleton P t ih =>
    obtain ⟨st0, h0, h1 | h1⟩ := run_concat_ok _ _ _ _ h
    · rw [h1.2, ih st0 h0, texts_append, texts_single, h1.1]; simp
    · rw [texts_append, texts_single, h1.1]
      simp only [Bool.false_eq_true, if_false, lastKind_concat]
      have h2 := h1.2
      unfold step at h2
      simp only [tokenEntry.typ] at h2
      split at h2
      · next s1 _ => simp at h2; rw [← h2]
      · simp at h2

theorem step_isBlock (st st1 : ParseState) (t : tokenEntry) (h : step st t = .ok st1) :
    st1.isBlock =
      if t.value = "\x7b" then true else if t.value = "\x7d" then false else st.isBlock := by
  rcases newTokenType_cases t.value with hk | hk | hk | hk | hk | hk
  · rw [step_blockStart st t hk] at h
    split_ifs at h
    simp only [Except.ok.injEq] at h
    simp [← h, (newTokenType_eq_blockStart _).mp hk]
  · rw [step_blockEnd st t hk] at h
    split_ifs at h
    simp only [Except.ok.injEq] at h
    have := (newTokenType_eq_blockEnd _).mp hk
    simp [← h, this]
  all_goals
    have h1 : t.value ≠ "\x7b" := fun hc => by
      rw [(newTokenType_eq_blockStart _).mpr hc] at hk; simp at hk
    have h2 : t.value ≠ "\x7d" := fun hc => by
      rw [(newTokenType_eq_blockEnd _).mpr hc] at hk; simp at hk
    simp only [h1, h2, if_false]
  · rw [step_styleSeparator st t hk] at h
    simp only [Except.ok.injEq] at h
    simp [← h]
  · rw [step_statementEnd st t hk] at h
    split_ifs at h
    simp only [Except.ok.injEq] at h
    simp [← h]
  · rw [step_selector st t hk] at h
    simp only [Except.ok.injEq] at h
    simp [← h]
  · rw [step_value st t hk] at h
    cases hp : st.prevToken <;> simp [hp] at h <;> simp [← h]

/-- After a successful run the flag `isBlock` says whether a `{` came after
the last `}`. -/
theorem run_isBlock (P : List tokenEntry) (st : ParseState)
    (h : run ParseState.init P = (st, none)) :
    st.isBlock = decide ("\x7b" ∈ sinceClose (texts P)) := by
  induction P using List.reverseRecOn generalizing st with
  | nil => simp [run] at h; subst h; rfl
  | append_singleton P t ih =>
    obtain ⟨st0, h0, h1 | h1⟩ := run_concat_ok _ _ _ _ h
    · rw [h1.2, ih st0 h0, texts_append, texts_single, h1.1]; simp
    · rw [texts_append, texts_single, h1.1]
      simp only [Bool.false_eq_true, if_false, sinceClose_concat]
      rw [step_isBlock _ _ _ h1.2, ih st0 h0]
      by_cases ha : t.value = "\x7b"
      · simp [ha]
      · by_cases hb : t.value = "\x7d"
        · simp [hb]
        · have : ¬ ("\x7b" = t.value) := fun hc => ha hc.symm
          simp [ha, hb, this]

/-- Claim C9.  When `parse` has processed `P` without error and the next
non-white-space token is `{`, it fails with "block is missing rule identifier"
at that token's line if and only if the previous non-white-space token is not
of kind Value (there may be none); otherwise it succeeds and the parser is
inside a block. -/
theorem block_start_needs_rule (P : List tokenEntry) (t : tokenEntry)
    (hP : (parse P).2 = none) (hs : isSpace t = false) (ht : t.value = "\x7b") :
    ((parse (P ++ [t])).2 =
        some (lineError t.token.line "block is missing rule identifier") ↔
      lastKind (texts P) ≠ tokenType.tokenValue) ∧
    (lastKind (texts P) = tokenType.tokenValue →
      (parse (P ++ [t])).2 = none ∧ (run ParseState.init (P ++ [t])).1.isBlock = true) := by
  simp only [parse] at hP ⊢
  have h0 : run ParseState.init P = ((run ParseState.init P).1, none) := by rw [← hP]
  have hk : t.typ = tokenType.tokenBlockStart := (newTokenType_eq_blockStart _).mpr ht
  rw [run_append_ok _ _ P [t] h0, run_single, hs, step_blockStart _ t hk,
    run_prevToken P _ h0]
  by_cases hl : lastKind (texts P) = tokenType.tokenValue
  · simp [hl]
  · simp [hl, lineError]

/-- Claim C8.  When `parse` has processed `P` without error and the next
non-white-space token is `}`, it fails with "rule block ends without a
beginning" at that token's line if and only if no `{` occurs among the tokens
after the last `}` of `P` (all of `P` when it has none), and it succeeds
otherwise.  In particular, when `}` is the first non-white-space token the
result is that error together with the empty stylesheet. -/
theorem block_end_without_beginning (P ws R : List tokenEntry) (t : tokenEntry)
    (hs : isSpace t = false) (ht : t.value = "\x7d") :
    ((parse P).2 = none →
      ((parse (P ++ [t])).2 =
          some (lineError t.token.line "rule block ends without a beginning") ↔
        "\x7b" ∉ sinceClose (texts P)) ∧
      ("\x7b" ∈ sinceClose (texts P) → (parse (P ++ [t])).2 = none)) ∧
    ((∀ w ∈ ws, isSpace w = true) →
      parse (ws ++ t :: R) =
        ([], some (lineError t.token.line "rule block ends without a beginning"))) := by
  have hk : t.typ = tokenType.tokenBlockEnd := (newTokenType_eq_blockEnd _).mpr ht
  constructor
  · intro hP
    simp only [parse] at hP ⊢
    have h0 : run ParseState.init P = ((run ParseState.init P).1, none) := by rw [← hP]
    rw [run_append_ok _ _ P [t] h0, run_single, hs, step_blockEnd _ t hk,
      run_isBlock P _ h0]
    by_cases hl : "\x7b" ∈ sinceClose (texts P)
    · simp [hl]
    · simp [hl, lineError]
  · intro hws
    have h1 : ∀ st, run st ws = (st, none) := by
      intro st
      induction ws with
      | nil => rfl
      | cons w ws ih =>
        have hw : w.token.typ = ScannerTokenType.TokenS := by
          have := hws w (by simp)
          simpa [isSpace] using this
        simp only [run, hw, if_true]
        exact ih (fun x hx => hws x (by simp [hx]))
    have h2 : t.token.typ ≠ ScannerTokenType.TokenS := by simpa [isSpace] using hs
    simp only [parse]
    rw [run_append_ok _ _ ws _ (h1 _)]
    simp only [run, h2, if_false]
    rw [step_blockEnd _ t hk]
    simp [ParseState.init, ParseState.output, resolve, lineError]

/-- Claim C9 at `P = a { x: 1; }` followed by `{` on line 2: the previous
token `}` is not a Value, so the `{` is rejected. -/
theorem block_start_needs_rule_witness :
    (parse exSingle).2 = none ∧
    ((parse (exSingle ++ [mkEntry ScannerTokenType.TokenChar 2 "\x7b"])).2 =
        some (lineError 2 "block is missing rule identifier") ↔
      lastKind (texts exSingle) ≠ tokenType.tokenValue) ∧
    (lastKind (texts exSingle) = tokenType.tokenValue →
      (parse (exSingle ++ [mkEntry ScannerTokenType.TokenChar 2 "\x7b"])).2 = none ∧
      (run ParseState.init
        (exSingle ++ [mkEntry ScannerTokenType.TokenChar 2 "\x7b"])).1.isBlock = true) :=
  ⟨by decide,
   block_start_needs_rule exSingle (mkEntry ScannerTokenType.TokenChar 2 "\x7b")
     (by decide) (by decide) (by decide)⟩

/-- Claim C8 at `P = a { x: 1; }` followed by `}` on line 2, and at the input
that starts with a white-space token and that `}`. -/
theorem block_end_without_beginning_witness :
    (parse exSingle).2 = none ∧
    (parse (exSingle ++ [mkEntry ScannerTokenType.TokenChar 2 "\x7d"])).2 =
      some (lineError 2 "rule block ends without a beginning") ∧
    parse ([mkEntry ScannerTokenType.TokenS 1 " "] ++
        mkEntry ScannerTokenType.TokenChar 2 "\x7d" :: exSingle) =
      ([], some (lineError 2 "rule block ends without a beginning")) :=
  ⟨by decide,
   ((block_end_without_beginning exSingle [mkEntry ScannerTokenType.TokenS 1 " "] exSingle
      (mkEntry ScannerTokenType.TokenChar 2 "\x7d") (by decide) (by decide)).1
      (by decide)).1.mpr (by decide),
   (block_end_without_beginning exSingle [mkEntry ScannerTokenType.TokenS 1 " "] exSingle
      (mkEntry ScannerTokenType.TokenChar 2 "\x7d") (by decide) (by decide)).2 (by decide)⟩

/-! ## What reaches the stylesheet -/

theorem mem_mapSet {β : Type} (m : List (String × β)) (k : String) (v : β)
    (e : String × β) (h : e ∈ mapSet m k v) : e ∈ m ∨ e = (k, v) := by
  induction m with
  | nil => simp [mapSet] at h; exact Or.inr h
  | cons a m ih =>
    obtain ⟨a1, a2⟩ := a
    simp only [mapSet] at h
    split_ifs at h with hk
    · simp only [List.mem_cons] at h ⊢
      rcases h with h | h
      · right; rw [h, hk]
      · left; right; exact h
    · simp only [List.mem_cons] at h ⊢
      rcases h with h | h
      · left; left; exact h
      · rcases ih h with h | h
        · left; right; exact h
        · right; exact h

theorem closeRule_fold (styles : Nat) (rule : List String) (css : List (String × Nat))
    (heap : List StyleMap) :
    (rule.foldl (closeRule styles) (css, heap)).2.length = heap.length ∧
    ∀ e ∈ (rule.foldl (closeRule styles) (css, heap)).1, e ∈ css ∨ e.2 = styles := by
  induction rule generalizing css heap with
  | nil => exact ⟨rfl, fun e he => Or.inl he⟩
  | cons r rule ih =>
    simp only [List.foldl_cons]
    have h := ih (closeRule styles (css, heap) r).1 (closeRule styles (css, heap) r).2
    constructor
    · rw [h.1]
      unfold closeRule
      simp only
      split <;> simp
    · intro e he
      rcases h.2 e he with h1 | h1
      · unfold closeRule at h1
        simp only at h1
        rcases mem_mapSet _ _ _ _ h1 with h2 | h2
        · exact Or.inl h2
        · right; rw [h2]
      · exact Or.inr h1

theorem resolve_set (heap : List StyleMap) (css : List (String × Nat)) (i : Nat)
    (m : StyleMap) (h : ∀ e ∈ css, e.2 ≠ i) :
    resolve (heap.set i m) css = resolve heap css := by
  unfold resolve
  apply List.map_congr_left
  intro e he
  have := h e he
  simp only [deref, Prod.mk.injEq, true_and]
  simp [List.getD_eq_getElem?_getD, List.getElem?_set_ne (Ne.symm this)]

/-- A successful step on a token other than `}` leaves the returned
stylesheet untouched. -/
theorem step_output (st st1 : ParseState) (t : tokenEntry) (h : step st t = .ok st1)
    (ht : t.value ≠ "\x7d") (hst : HeapOk st) : st1.output = st.output := by
  rcases newTokenType_cases t.value with hk | hk | hk | hk | hk | hk
  · rw [step_blockStart st t hk] at h
    split_ifs at h
    simp only [Except.ok.injEq] at h
    simp [← h, ParseState.output]
  · exact absurd ((newTokenType_eq_blockEnd _).mp hk) ht
  · rw [step_styleSeparator st t hk] at h
    simp only [Except.ok.injEq] at h
    simp [← h, ParseState.output]
  · rw [step_statementEnd st t hk] at h
    split_ifs at h
    simp only [Except.ok.injEq] at h
    simp only [← h, ParseState.output]
    exact resolve_set _ _ _ _ (fun e he => Nat.ne_of_lt (hst.2 e he))
  · rw [step_selector st t hk] at h
    simp only [Except.ok.injEq] at h
    simp [← h, ParseState.output]
  · rw [step_value st t hk] at h
    cases hp : st.prevToken <;> simp [hp] at h <;> simp [← h, ParseState.output]

theorem step_heapOk (st st1 : ParseState) (t : tokenEntry) (h : step st t = .ok st1)
    (hst : HeapOk st) : HeapOk st1 := by
  rcases newTokenType_cases t.value with hk | hk | hk | hk | hk | hk
  · rw [step_blockStart st t hk] at h
    split_ifs at h
    simp only [Except.ok.injEq] at h
    rw [← h]; exact hst
  · rw [step_blockEnd st t hk] at h
    split_ifs at h
    simp only [Except.ok.injEq] at h
    have hf := closeRule_fold st.styles st.rule st.css st.heap
    rw [← h]
    refine ⟨by simp, ?_⟩
    intro e he
    simp only at he ⊢
    rw [hf.1]
    rcases hf.2 e he with h1 | h1
    · exact Nat.lt_trans (hst.2 e h1) hst.1
    · rw [h1]; exact hst.1
  · rw [step_styleSeparator st t hk] at h
    simp only [Except.ok.injEq] at h
    rw [← h]; exact hst
  · rw [step_statementEnd st t hk] at h
    split_ifs at h
    simp only [Except.ok.injEq] at h
    rw [← h]
    exact ⟨by simpa using hst.1, hst.2⟩
  · rw [step_selector st t hk] at h
    simp only [Except.ok.injEq] at h
    rw [← h]; exact hst
  · rw [step_value st t hk] at h
    cases hp : st.prevToken <;> simp [hp] at h <;> rw [← h] <;> exact hst

theorem run_heapOk (P : List tokenEntry) (st : ParseState)
    (h : run ParseState.init P = (st, none)) : HeapOk st := by
  induction P using List.reverseRecOn generalizing st with
  | nil => simp [run] at h; subst h; simp [HeapOk, ParseState.init]
  | append_singleton P t ih =>
    obtain ⟨st0, h0, h1 | h1⟩ := run_concat_ok _ _ _ _ h
    · rw [h1.2]; exact ih st0 h0
    · exact step_heapOk _ _ _ h1.2 (ih st0 h0)

/-- The stylesheet returned for `l` is the one returned for the prefix of `l`
that ends at the last accepted `}`. -/
theorem output_eq_last_close (l : List tokenEntry) :
    ∃ P S, l = P ++ S ∧ (parse P).2 = none ∧ (parse l).1 = (parse P).1 ∧
      (P = [] ∨ ∃ P0 t, P = P0 ++ [t] ∧ isSpace t = false ∧ t.value = "\x7d") ∧
      ∀ S1 t S2, S = S1 ++ t :: S2 → isSpace t = false → t.value = "\x7d" →
        (parse (P ++ S1 ++ [t])).2 ≠ none := by
  induction l using List.reverseRecOn with
  | nil => exact ⟨[], [], rfl, rfl, rfl, Or.inl rfl, by simp⟩
  | append_singleton l t ih =>
    obtain ⟨P, S, hl, hP, hout, hend, hlast⟩ := ih
    -- keeping the same prefix works whenever the new token is not an accepted `}`
    have keep : (parse (l ++ [t])).1 = (parse l).1 →
        (isSpace t = false → t.value = "\x7d" → (parse (l ++ [t])).2 ≠ none) →
        ∃ P S, l ++ [t] = P ++ S ∧ (parse P).2 = none ∧
          (parse (l ++ [t])).1 = (parse P).1 ∧
          (P = [] ∨ ∃ P0 t, P = P0 ++ [t] ∧ isSpace t = false ∧ t.value = "\x7d") ∧
          ∀ S1 u S2, S = S1 ++ u :: S2 → isSpace u = false → u.value = "\x7d" →
            (parse (P ++ S1 ++ [u])).2 ≠ none := by
      intro h1 h2
      refine ⟨P, S ++ [t], by rw [hl, List.append_assoc], hP, by rw [h1, hout], hend, ?_⟩
      intro S1 u S2 hS hu1 hu2
      rcases List.eq_nil_or_concat S2 with h | ⟨S3, x, h⟩
      · subst h
        have h3 : S ++ [t] = S1 ++ [u] := hS
        have h4 := List.append_inj' h3 rfl
        have h5 : t = u := by simpa using h4.2
        subst h5
        rw [← h4.1, ← hl]
        exact h2 hu1 hu2
      · subst h
        have h3 : S ++ [t] = (S1 ++ u :: S3) ++ [x] := by simpa using hS
        have h4 := List.append_inj' h3 rfl
        exact hlast S1 u S3 h4.1 hu1 hu2
    cases herr : (run ParseState.init l).2 with
    | some e =>
      have h1 : run ParseState.init (l ++ [t]) = run ParseState.init l :=
        run_append_error _ _ _ e herr
      apply keep
      · simp [parse, h1]
      · intro _ _
        simp [parse, h1, herr]
    | none =>
      have h0 : run ParseState.init l = ((run ParseState.init l).1, none) := by rw [← herr]
      have h1 : run ParseState.init (l ++ [t]) = run (run ParseState.init l).1 [t] :=
        run_append_ok _ _ _ _ h0
      rw [run_single] at h1
      by_cases hs : isSpace t = true
      · simp only [hs, if_true] at h1
        apply keep
        · simp [parse, h1]
        · intro hc; simp [hs] at hc
      · simp only [hs] at h1
        cases hst : step (run ParseState.init l).1 t with
        | error e =>
          simp only [hst] at h1
          apply keep
          · simp [parse, h1]
          · intro _ _; simp [parse, h1]
        | ok st1 =>
          simp only [hst] at h1
          by_cases hv : t.value = "\x7d"
          · refine ⟨l ++ [t], [], by simp, by simp [parse, h1], rfl,
              Or.inr ⟨l, t, rfl, by simpa using hs, hv⟩, by simp⟩
          · apply keep
            · simp only [parse, h1]
              exact step_output _ _ _ hst hv (run_heapOk l _ h0)
            · intro _ hc; exact absurd hc hv

/-- Claim C10.  If `l` has no non-white-space token `}` the returned stylesheet
is empty, with or without an error.  In general `l` splits as `P ++ S` where
`P` parses without error and is empty or ends with a `}`, no `}` of `S` is
accepted, and the stylesheet returned for `l` is the one returned for `P`. -/
theorem no_partial_blocks (l : List tokenEntry) :
    ((∀ t ∈ l, isSpace t = false → t.value ≠ "\x7d") → (parse l).1 = []) ∧
    ∃ P S, l = P ++ S ∧ (parse P).2 = none ∧ (parse l).1 = (parse P).1 ∧
      (P = [] ∨ ∃ P0 t, P = P0 ++ [t] ∧ isSpace t = false ∧ t.value = "\x7d") ∧
      ∀ S1 t S2, S = S1 ++ t :: S2 → isSpace t = false → t.value = "\x7d" →
        (parse (P ++ S1 ++ [t])).2 ≠ none := by
  refine ⟨?_, output_eq_last_close l⟩
  intro h
  obtain ⟨P, S, hl, _, hout, hend, _⟩ := output_eq_last_close l
  rcases hend with hP | ⟨P0, t, hP, ht1, ht2⟩
  · rw [hout, hP]; rfl
  · exact absurd ht2 (h t (by rw [hl, hP]; simp) ht1)

/-- Claim C10 at the unterminated block `a { x: 1;`: nothing is committed. -/
theorem no_partial_blocks_witness :
    (∀ t ∈ exUnterminated, isSpace t = false → t.value ≠ "\x7d") ∧
    (parse exUnterminated).1 = [] :=
  ⟨by decide, (no_partial_blocks exUnterminated).1 (by decide)⟩

/-! ## Style maps and the merge of two blocks -/

theorem mapGet_mapSet {β : Type} (m : List (String × β)) (k q : String) (v : β) :
    mapGet (mapSet m k v) q = if k = q then some v else mapGet m q := by
  induction m with
  | nil => simp [mapSet, mapGet]
  | cons a m ih =>
    obtain ⟨a1, a2⟩ := a
    simp only [mapSet]
    by_cases h1 : a1 = k
    · simp only [h1, if_true, mapGet]
      split_ifs <;> rfl
    · simp only [h1, if_false, mapGet, ih]
      by_cases h2 : a1 = q
      · have : k ≠ q := fun hc => h1 (h2.trans hc.symm)
        simp [h2, this]
      · simp [h2]

theorem mapKeys_mapSet {β : Type} (m : List (String × β)) (k : String) (v : β) :
    mapKeys (mapSet m k v) = if k ∈ mapKeys m then mapKeys m else mapKeys m ++ [k] := by
  induction m with
  | nil => simp [mapSet, mapKeys]
  | cons a m ih =>
    obtain ⟨a1, a2⟩ := a
    simp only [mapSet]
    by_cases h1 : a1 = k
    · simp [h1, mapKeys]
    · have h2 : ¬ k = a1 := fun hc => h1 hc.symm
      simp only [mapKeys] at ih
      simp only [h1, if_false, mapKeys, List.map_cons, ih, List.mem_cons, h2, false_or]
      split_ifs <;> simp

theorem mapSet_nodup {β : Type} (m : List (String × β)) (k : String) (v : β)
    (h : (mapKeys m).Nodup) : (mapKeys (mapSet m k v)).Nodup := by
  rw [mapKeys_mapSet]
  split_ifs with hk
  · exact h
  · rw [List.nodup_append]
    exact ⟨h, by simp, by simpa using hk⟩

theorem foldl_mapSet_nodup (D : List (String × String)) (m : StyleMap)
    (h : (mapKeys m).Nodup) :
    (mapKeys (D.foldl (fun acc d => mapSet acc d.1 d.2) m)).Nodup := by
  induction D generalizing m with
  | nil => exact h
  | cons d D ih => exact ih _ (mapSet_nodup m d.1 d.2 h)

theorem lastDecl_cons (d : String × String) (D : List (String × String)) (q : String) :
    lastDecl (d :: D) q =
      match lastDecl D q with
      | some v => some v
      | none => if d.1 = q then some d.2 else none := by
  unfold lastDecl
  simp only [List.reverse_cons, List.find?_append]
  cases h : List.find? (fun d => decide (d.1 = q)) D.reverse with
  | some x => simp
  | none =>
    by_cases hq : d.1 = q <;> simp [List.find?, hq]

theorem mapGet_foldl_mapSet (D : List (String × String)) (m : StyleMap) (q : String) :
    mapGet (D.foldl (fun acc d => mapSet acc d.1 d.2) m) q =
      match lastDecl D q with
      | some v => some v
      | none => mapGet m q := by
  induction D generalizing m with
  | nil => simp [lastDecl]
  | cons d D ih =>
    simp only [List.foldl_cons]
    rw [ih, lastDecl_cons, mapGet_mapSet]
    cases lastDecl D q <;> simp
    split_ifs <;> simp

theorem mapGet_mergeInto (oldRule styles : StyleMap) (q : String) :
    mapGet (mergeInto oldRule styles) q =
      match mapGet styles q with
      | some v => some v
      | none => mapGet oldRule q := by
  unfold mergeInto
  induction oldRule generalizing styles with
  | nil => cases h : mapGet styles q <;> simp [mapGet, h]
  | cons a m ih =>
    obtain ⟨k, v⟩ := a
    simp only [List.foldl_cons]
    rw [ih]
    cases hk : mapGet styles k with
    | some x =>
      simp only [mapGet]
      by_cases hq : k = q
      · subst hq; simp [hk]
      · simp [hq]
    | none =>
      simp only [mapGet_mapSet, mapGet]
      by_cases hq : k = q
      · subst hq; simp [hk]
      · simp [hq]

theorem mergeInto_nodup (oldRule styles : StyleMap) (h : (mapKeys styles).Nodup) :
    (mapKeys (mergeInto oldRule styles)).Nodup := by
  unfold mergeInto
  induction oldRule generalizing styles with
  | nil => exact h
  | cons a m ih =>
    simp only [List.foldl_cons]
    apply ih
    cases mapGet styles a.1 with
    | some x => exact h
    | none => exact mapSet_nodup _ _ _ h

theorem runTexts_append (st : ParseState) (a b : List String) :
    runTexts st (a ++ b) = (runTexts st a).bind (fun s => runTexts s b) := by
  induction a generalizing st with
  | nil => simp [runTexts]
  | cons v a ih =>
    simp only [List.cons_append, runTexts]
    cases step st (mkEntry ScannerTokenType.TokenIdent 0 v) with
    | error e => simp
    | ok s1 => simp only []; exact ih s1

theorem deref_set_self (heap : List StyleMap) (i : Nat) (m : StyleMap) (h : i < heap.length) :
    deref (heap.set i m) i = m := by
  simp [deref, List.getElem?_set_self h]

theorem set_deref_self (heap : List StyleMap) (i : Nat) (h : i < heap.length) :
    heap.set i (deref heap i) = heap := by
  apply List.ext_getElem?
  intro j
  by_cases hj : i = j
  · subst hj; simp [deref, List.getElem?_set_self h, List.getElem?_eq_getElem h]
  · simp [List.getElem?_set_ne hj]

/-- Running one well-formed declaration `p : v ;` inside a block stores `v`
under `p` in the current style map. -/
theorem runTexts_decl (st : ParseState) (d : String × String) (rest : List String)
    (hd : wellFormedDecl d = true)
    (hk : st.prevToken = tokenType.tokenBlockStart ∨
      st.prevToken = tokenType.tokenStatementEnd) :
    runTexts st (d.1 :: ":" :: d.2 :: ";" :: rest) =
      runTexts { st with style := d.1, value := d.2,
                         heap := st.heap.set st.styles (mapSet (deref st.heap st.styles) d.1 d.2),
                         prevToken := tokenType.tokenStatementEnd } rest := by
  simp only [wellFormedDecl, Bool.and_eq_true, decide_eq_true_eq] at hd
  obtain ⟨⟨⟨h1, h2⟩, h3⟩, h4⟩ := hd
  rcases hk with hk | hk <;>
    simp [runTexts, step, mkEntry, tokenEntry.typ, h1, h2, h3, h4, hk,
      newTokenType_colon, newTokenType_semi]

/-- Running a list of well-formed declarations inside a block: the current
style map receives the declarations in order; nothing else but `style`,
`value` and the previous kind changes. -/
theorem runTexts_decls (D : List (String × String)) (st : ParseState) (rest : List String)
    (hD : ∀ d ∈ D, wellFormedDecl d = true)
    (hk : st.prevToken = tokenType.tokenBlockStart ∨
      st.prevToken = tokenType.tokenStatementEnd)
    (hh : st.styles < st.heap.length) :
    ∃ a b k, (k = tokenType.tokenBlockStart ∨ k = tokenType.tokenStatementEnd) ∧
      runTexts st (declTexts D ++ rest) =
        runTexts { st with
          style := a
          value := b
          heap := st.heap.set st.styles
            (D.foldl (fun acc d => mapSet acc d.1 d.2) (deref st.heap st.styles))
          prevToken := k } rest := by
  induction D generalizing st with
  | nil =>
    refine ⟨st.style, st.value, st.prevToken, hk, ?_⟩
    simp [declTexts, set_deref_self _ _ hh]
  | cons d D ih =>
    have hd := hD d (by simp)
    simp only [declTexts, List.cons_append]
    rw [runTexts_decl st d _ hd hk]
    obtain ⟨a, b, k, hk1, h⟩ := ih
      { st with style := d.1, value := d.2,
                heap := st.heap.set st.styles (mapSet (deref st.heap st.styles) d.1 d.2),
                prevToken := tokenType.tokenStatementEnd }
      (fun x hx => hD x (by simp [hx])) (Or.inr rfl) (by simpa using hh)
    refine ⟨a, b, k, hk1, ?_⟩
    rw [h]
    simp [deref_set_self _ _ _ hh, List.set_set]

/-- Claim C3.  For a Value text `s` and two lists `D1`, `D2` of well-formed
declarations, every token sequence whose non-white-space texts are
`s { D1 } s { D2 }` parses without error into a stylesheet whose only key is
`s`; its style map has unique keys and maps each property to the value of its
last declaration in `D2` if `D2` declares it, otherwise to the value of its
last declaration in `D1` if `D1` declares it, and holds no other property. -/
theorem merge_two_blocks (s : String) (D1 D2 : List (String × String))
    (hs : newTokenType s = tokenType.tokenValue)
    (hD1 : ∀ d ∈ D1, wellFormedDecl d = true)
    (hD2 : ∀ d ∈ D2, wellFormedDecl d = true)
    (l : List tokenEntry)
    (hl : texts l =
      s :: "\x7b" :: (declTexts D1 ++ "\x7d" :: s :: "\x7b" :: (declTexts D2 ++ ["\x7d"]))) :
    (parse l).2 = none ∧
    ∃ m, (parse l).1 = [(s, m)] ∧ (mapKeys m).Nodup ∧
      ∀ q, mapGet m q =
        match lastDecl D2 q with
        | some v => some v
        | none => lastDecl D1 q := by
  have hrun : ∃ st, runTexts ParseState.init (texts l) = some st ∧
      st.output = [(s, mergeInto
        (mergeInto (D1.foldl (fun acc d => mapSet acc d.1 d.2) [])
          (D2.foldl (fun acc d => mapSet acc d.1 d.2) []))
        (mergeInto (D1.foldl (fun acc d => mapSet acc d.1 d.2) [])
          (D2.foldl (fun acc d => mapSet acc d.1 d.2) [])))] := by
    rw [hl]
    -- first block: selector and opening brace
    have e1 : ∀ rest, runTexts ParseState.init (s :: "\x7b" :: rest) =
        runTexts
          { rule := [s], style := "", value := "", selector := "", isBlock := true,
            css := [], styles := 0, heap := [[]],
            prevToken := tokenType.tokenBlockStart } rest := by
      intro rest
      simp [runTexts, step, mkEntry, tokenEntry.typ, hs, ParseState.init, newTokenType_lbrace]
    rw [e1]
    obtain ⟨a1, b1, k1, hk1, e2⟩ := runTexts_decls D1
      { rule := [s], style := "", value := "", selector := "", isBlock := true,
        css := [], styles := 0, heap := [[]],
        prevToken := tokenType.tokenBlockStart }
      ("\x7d" :: s :: "\x7b" :: (declTexts D2 ++ ["\x7d"])) hD1 (Or.inl rfl)
      (by simp)
    rw [e2]
    -- first block closes, second block opens
    have e3 : ∀ (M : StyleMap) rest, runTexts
        { rule := [s], style := a1, value := b1, selector := "", isBlock := true,
          css := [], styles := 0, heap := [M], prevToken := k1 }
        ("\x7d" :: s :: "\x7b" :: rest) =
        runTexts
        { rule := [s, s], style := "", value := "", selector := "", isBlock := true,
          css := [(s, 0)], styles := 1, heap := [M, []],
          prevToken := tokenType.tokenBlockStart } rest := by
      intro M rest
      simp [runTexts, step, mkEntry, tokenEntry.typ, hs, newTokenType_lbrace,
        newTokenType_rbrace, closeRule, mapGet, mapSet]
    simp only [List.set_cons_zero, deref, List.getD_cons_zero]
    rw [e3]
    obtain ⟨a2, b2, k2, hk2, e4⟩ := runTexts_decls D2
      { rule := [s, s], style := "", value := "", selector := "", isBlock := true,
        css := [(s, 0)], styles := 1,
        heap := [D1.foldl (fun acc d => mapSet acc d.1 d.2) [], []],
        prevToken := tokenType.tokenBlockStart }
      ["\x7d"] hD2 (Or.inl rfl) (by simp)
    rw [e4]
    simp [runTexts, step, mkEntry, tokenEntry.typ, newTokenType_rbrace, closeRule, mapGet,
      mapSet, deref, ParseState.output, resolve]
  obtain ⟨st, h1, h2⟩ := hrun
  have h3 := run_of_runTexts l _ _ h1
  have hout : (parse l).1 = st.output := by simp only [parse, h3]
  rw [h2] at hout
  refine ⟨by simp [parse, h3], _, hout, ?_, ?_⟩
  · exact mergeInto_nodup _ _ (mergeInto_nodup _ _ (foldl_mapSet_nodup _ _ (by simp [mapKeys])))
  · intro q
    rw [mapGet_mergeInto, mapGet_mergeInto, mapGet_foldl_mapSet, mapGet_foldl_mapSet]
    cases lastDecl D2 q <;> cases lastDecl D1 q <;> simp [mapGet]

/-- Claim C3 at `a { x: 1; } a { x: 2; }`, which gives `{x: 2}`, and at
`a { x: 1; } a { y: 2; }`, which gives `{x: 1, y: 2}`. -/
theorem merge_two_blocks_witness :
    parse exConflict = ([("a", [("x", "2")])], none) ∧
    ((parse exConflict).2 = none ∧
      ∃ m, (parse exConflict).1 = [("a", m)] ∧ (mapKeys m).Nodup ∧
        ∀ q, mapGet m q =
          match lastDecl [("x", "2")] q with
          | some v => some v
          | none => lastDecl [("x", "1")] q) ∧
    parse exDisjoint = ([("a", [("y", "2"), ("x", "1")])], none) ∧
    ((parse exDisjoint).2 = none ∧
      ∃ m, (parse exDisjoint).1 = [("a", m)] ∧ (mapKeys m).Nodup ∧
        ∀ q, mapGet m q =
          match lastDecl [("y", "2")] q with
          | some v => some v
          | none => lastDecl [("x", "1")] q) :=
  ⟨by decide,
   merge_two_blocks "a" [("x", "1")] [("x", "2")] (by decide) (by decide) (by decide)
     exConflict (by decide),
   by decide,
   merge_two_blocks "a" [("x", "1")] [("y", "2")] (by decide) (by decide) (by decide)
     exDisjoint (by decide)⟩

/-! ## The guard of the statement end -/

theorem valueAfter_concat (ks : tokenType → Bool) (w : List String) (v : String) :
    valueAfter ks (w ++ [v]) =
      (valueAfter ks w ||
        match w.getLast? with
        | some a => ks (newTokenType a) && decide (newTokenType v = tokenType.tokenValue)
            && decide (v ≠ "")
        | none => false) := by
  induction w with
  | nil => simp [valueAfter]
  | cons a w ih =>
    cases w with
    | nil => simp [valueAfter]
    | cons b w =>
      have e : valueAfter ks (a :: b :: w ++ [v]) =
          ((ks (newTokenType a) && decide (newTokenType b = tokenType.tokenValue)
              && decide (b ≠ "")) || valueAfter ks (b :: w ++ [v])) := rfl
      rw [e, ih]
      simp [valueAfter, List.getLast?_cons_cons, Bool.or_assoc]

theorem sinceClose_getLast? (vs : List String) :
    (sinceClose vs).getLast? =
      match vs.getLast? with
      | some a => if a = "\x7d" then none else some a
      | none => none := by
  rcases List.eq_nil_or_concat vs with h | ⟨u, a, h⟩
  · subst h; rfl
  · subst h
    rw [List.concat_eq_append, sinceClose_concat]
    by_cases ha : a = "\x7d" <;> simp [ha]

/-- The effect of a successful step on `style` and `value`. -/
theorem step_style_value (st st1 : ParseState) (t : tokenEntry) (h : step st t = .ok st1) :
    (st1.style = st.style ∨ t.value = "\x7d" ∧ st1.style = "" ∨
      (t.typ = tokenType.tokenValue ∧ opensDecl st.prevToken = true ∧ st1.style = t.value)) ∧
    (st1.value = st.value ∨ t.value = "\x7d" ∧ st1.value = "" ∨
      (t.typ = tokenType.tokenValue ∧ opensValue st.prevToken = true ∧ st1.value = t.value)) := by
  rcases newTokenType_cases t.value with hk | hk | hk | hk | hk | hk
  · rw [step_blockStart st t hk] at h
    split_ifs at h
    simp only [Except.ok.injEq] at h
    simp [← h]
  · rw [step_blockEnd st t hk] at h
    split_ifs at h
    simp only [Except.ok.injEq] at h
    have := (newTokenType_eq_blockEnd _).mp hk
    simp [← h, this]
  · rw [step_styleSeparator st t hk] at h
    simp only [Except.ok.injEq] at h
    simp [← h]
  · rw [step_statementEnd st t hk] at h
    split_ifs at h
    simp only [Except.ok.injEq] at h
    simp [← h]
  · rw [step_selector st t hk] at h
    simp only [Except.ok.injEq] at h
    simp [← h]
  · rw [step_value st t hk] at h
    have hk1 : t.typ = tokenType.tokenValue := hk
    cases hp : st.prevToken <;> simp [hp] at h <;>
      simp [← h, hk1, opensDecl, opensValue]

/-- Without a non-empty property name (value) since the last `}`, the
variable `style` (`value`) is empty. -/
theorem run_style_value (P : List tokenEntry) (st : ParseState)
    (h : run ParseState.init P = (st, none)) :
    (valueAfter opensDecl (sinceClose (texts P)) = false → st.style = "") ∧
    (valueAfter opensValue (sinceClose (texts P)) = false → st.value = "") := by
  induction P using List.reverseRecOn generalizing st with
  | nil => simp [run] at h; subst h; simp [ParseState.init]
  | append_singleton P t ih =>
    obtain ⟨st0, h0, h1 | h1⟩ := run_concat_ok _ _ _ _ h
    · rw [h1.2, texts_append, texts_single, h1.1]; simpa using ih st0 h0
    · rw [texts_append, texts_single, h1.1]
      simp only [Bool.false_eq_true, if_false, sinceClose_concat]
      have hprev := run_prevToken P st0 h0
      have hsv := step_style_value _ _ _ h1.2
      have hih := ih st0 h0
      by_cases hc : t.value = "\x7d"
      · have hk : t.typ = tokenType.tokenBlockEnd := (newTokenType_eq_blockEnd _).mpr hc
        rw [step_blockEnd _ _ hk] at h1
        have h2 := h1.2
        split_ifs at h2
        simp only [Except.ok.injEq] at h2
        simp [← h2]
      · simp only [hc, if_false, valueAfter_concat, sinceClose_getLast?, Bool.or_eq_false_iff]
        have key : ∀ ks : tokenType → Bool, ks tokenType.tokenFirstToken = false →
            ks tokenType.tokenBlockEnd = false → ks st0.prevToken = true →
            t.typ = tokenType.tokenValue →
            (match
              (match (texts P).getLast? with
              | some a => if a = "\x7d" then none else some a
              | none => none) with
            | some a => ks (newTokenType a) &&
                decide (newTokenType t.value = tokenType.tokenValue) && decide (t.value ≠ "")
            | none => false) = false → t.value = "" := by
          intro ks hf he hks htv hm
          rw [hprev] at hks
          unfold lastKind at hks
          cases hg : (texts P).getLast? with
          | none => rw [hg] at hks; simp [hf] at hks
          | some a =>
            rw [hg] at hks hm
            simp only at hks hm
            by_cases ha : a = "\x7d"
            · rw [ha, newTokenType_rbrace, he] at hks; simp at hks
            · simp only [ha, if_false, hks, Bool.true_and] at hm
              have htv1 : newTokenType t.value = tokenType.tokenValue := htv
              simpa [htv1] using hm
        constructor
        · rintro ⟨ha, hb⟩
          rcases hsv.1 with h2 | h2 | h2
          · rw [h2]; exact hih.1 ha
          · exact absurd h2.1 hc
          · rw [h2.2.2]
            exact key opensDecl (by decide) (by decide) h2.2.1 h2.1 hb
        · rintro ⟨ha, hb⟩
          rcases hsv.2 with h2 | h2 | h2
          · rw [h2]; exact hih.2 ha
          · exact absurd h2.1 hc
          · rw [h2.2.2]
            exact key opensValue (by decide) (by decide) h2.2.1 h2.1 hb

/-- Claim C5, as amended.  When `parse` has processed `P` without error and
the next non-white-space token is `;`, it fails with "expected style before
semicolon" at that token's line whenever the previous non-white-space token is
not of kind Value, or no non-empty Value text directly follows a `{` or `;`
after the last `}` of `P`, or no non-empty Value text directly follows a `:`
after the last `}` of `P`. -/
theorem statement_end_guard (P : List tokenEntry) (t : tokenEntry)
    (hP : (parse P).2 = none) (hs : isSpace t = false) (ht : t.value = ";")
    (h : lastKind (texts P) ≠ tokenType.tokenValue ∨
      valueAfter opensDecl (sinceClose (texts P)) = false ∨
      valueAfter opensValue (sinceClose (texts P)) = false) :
    (parse (P ++ [t])).2 = some (lineError t.token.line "expected style before semicolon") := by
  simp only [parse] at hP ⊢
  have h0 : run ParseState.init P = ((run ParseState.init P).1, none) := by rw [← hP]
  have hk : t.typ = tokenType.tokenStatementEnd := by
    unfold tokenEntry.typ; rw [ht]; exact newTokenType_semi
  have hsv := run_style_value P _ h0
  rw [run_append_ok _ _ P [t] h0, run_single, hs, step_statementEnd _ t hk,
    run_prevToken P _ h0]
  have : ¬ (lastKind (texts P) = tokenType.tokenValue ∧
      (run ParseState.init P).1.style ≠ "" ∧ (run ParseState.init P).1.value ≠ "") := by
    rintro ⟨h1, h2, h3⟩
    rcases h with h | h | h
    · exact h h1
    · exact h2 (hsv.1 h)
    · exact h3 (hsv.2 h)
  simp [this]

/-- Claim C5 as stated fails.  After `a { x : : 1` and after `a { x : 1 ; y`
the three texts before the next `;` are not (Value, `:`, Value), yet the `;`
is accepted in both cases. -/
theorem statement_end_counterexample :
    ((parse exDoubleColon).2 = none ∧ endsWithPair (texts exDoubleColon) = false ∧
      (parse (exDoubleColon ++ [mkEntry ScannerTokenType.TokenChar 1 ";"])).2 = none) ∧
    ((parse exStale).2 = none ∧ endsWithPair (texts exStale) = false ∧
      (parse (exStale ++ [mkEntry ScannerTokenType.TokenChar 1 ";"])).2 = none) := by
  decide

/-- Claim C5, as amended, at `a {\n x 1` followed by `;` on line 2: no Value
follows a `:`, so the `;` is rejected. -/
theorem statement_end_guard_witness :
    (parse (exMissingColon.take 7)).2 = none ∧
    valueAfter opensValue (sinceClose (texts (exMissingColon.take 7))) = false ∧
    (parse (exMissingColon.take 7 ++ [mkEntry ScannerTokenType.TokenChar 2 ";"])).2 =
      some (lineError 2 "expected style before semicolon") :=
  ⟨by decide, by decide,
   statement_end_guard (exMissingColon.take 7) (mkEntry ScannerTokenType.TokenChar 2 ";")
     (by decide) (by decide) (by decide) (Or.inr (Or.inr (by decide)))⟩

/-! ## The classifier and the rule type -/

/-- Claim C12.  The classifier is the total text-to-kind table: the result is
`tokenBlockStart` exactly for `{`, `tokenBlockEnd` exactly for `}`,
`tokenStyleSeparator` exactly for `:`, `tokenStatementEnd` exactly for `;`,
`tokenSelector` exactly for `.` and `#`, and `tokenValue` for every other
string, the empty string and longer strings such as `.foo` included; it is
never `tokenRuleName` or `tokenFirstToken`. -/
theorem newTokenType_table (t : String) :
    (newTokenType t = tokenType.tokenBlockStart ↔ t = "\x7b") ∧
    (newTokenType t = tokenType.tokenBlockEnd ↔ t = "\x7d") ∧
    (newTokenType t = tokenType.tokenStyleSeparator ↔ t = ":") ∧
    (newTokenType t = tokenType.tokenStatementEnd ↔ t = ";") ∧
    (newTokenType t = tokenType.tokenSelector ↔ (t = "." ∨ t = "#")) ∧
    (newTokenType t = tokenType.tokenValue ↔
      (t ≠ "\x7b" ∧ t ≠ "\x7d" ∧ t ≠ ":" ∧ t ≠ ";" ∧ t ≠ "." ∧ t ≠ "#")) ∧
    newTokenType t ≠ tokenType.tokenRuleName ∧
    newTokenType t ≠ tokenType.tokenFirstToken ∧
    newTokenType "" = tokenType.tokenValue ∧
    newTokenType ".foo" = tokenType.tokenValue ∧
    newTokenType "\x7b\x7d" = tokenType.tokenValue := by
  refine ⟨?_, ?_, ?_, ?_, ?_, ?_, ?_, ?_, by decide, by decide, by decide⟩ <;>
    unfold newTokenType <;> split_ifs <;> (simp_all; try tauto)

theorem startsWith_iff (r pre : String) :
    startsWith r pre = true ↔ ∃ rest : String, r = pre ++ rest := by
  unfold startsWith
  rw [List.isPrefixOf_iff_prefix]
  constructor
  · rintro ⟨t, ht⟩
    exact ⟨⟨t⟩, String.ext (by simp [ht])⟩
  · rintro ⟨rest, h⟩
    exact ⟨rest.data, by simp [h]⟩

/-- Claim C13.  The type of a rule is "class" exactly when the rule starts
with `.`, "id" exactly when it starts with `#`, and "tag" exactly otherwise
(so also for the empty string); it is always one of the three.  In particular
`.foo` is a class, `#bar` an id and `div` a tag. -/
theorem RuleType_spec (r : String) :
    (RuleType r = "class" ↔ ∃ rest : String, r = "." ++ rest) ∧
    (RuleType r = "id" ↔ ∃ rest : String, r = "#" ++ rest) ∧
    (RuleType r = "tag" ↔
      ((¬ ∃ rest : String, r = "." ++ rest) ∧ ¬ ∃ rest : String, r = "#" ++ rest)) ∧
    (RuleType r = "class" ∨ RuleType r = "id" ∨ RuleType r = "tag") ∧
    RuleType "" = "tag" ∧
    RuleType ".foo" = "class" ∧ RuleType "#bar" = "id" ∧ RuleType "div" = "tag" := by
  have hboth : startsWith r "." = true → startsWith r "#" = true → False := by
    intro h1 h2
    obtain ⟨a, ha⟩ := (startsWith_iff _ _).mp h1
    obtain ⟨b, hb⟩ := (startsWith_iff _ _).mp h2
    rw [ha] at hb
    have := congrArg String.data hb
    simp at this
  rw [← startsWith_iff, ← startsWith_iff]
  refine ⟨?_, ?_, ?_, ?_, by decide, by decide, by decide, by decide⟩
  · unfold RuleType; split_ifs <;> simp_all
  · unfold RuleType; split_ifs with h1 h2 <;> simp_all
  · unfold RuleType; split_ifs <;> simp_all
  · unfold RuleType; split_ifs <;> simp

/-! ## White space and the token queue -/

/-- The loop never looks at a white-space token. -/
theorem run_filter (st : ParseState) (ts : List tokenEntry) :
    run st ts = run st (ts.filter (fun t => !isSpace t)) := by
  induction ts generalizing st with
  | nil => rfl
  | cons t ts ih =>
    by_cases hs : t.token.typ = ScannerTokenType.TokenS
    · simp only [run, hs, if_true, isSpace, decide_True, Bool.not_true, List.filter_cons_of_neg,
        Bool.false_eq_true, not_false_eq_true]
      exact ih st
    · have h1 : List.filter (fun t => !isSpace t) (t :: ts) =
          t :: List.filter (fun t => !isSpace t) ts := by simp [isSpace, hs]
      rw [h1]
      simp only [run, hs, if_false]
      cases step st t with
      | error e => rfl
      | ok s1 => exact ih s1

/-- Claim C14.  Parsing `ts` gives the same stylesheet and the same error as
parsing `ts` without its white-space tokens, and leaves the same previous-kind
state; inserting a white-space token `w` anywhere changes neither the result
nor the previous-kind state seen by the next token. -/
theorem whitespace_insensitive (ts a b : List tokenEntry) (w : tokenEntry) :
    parse ts = parse (ts.filter (fun t => !isSpace t)) ∧
    (run ParseState.init ts).1.prevToken =
      (run ParseState.init (ts.filter (fun t => !isSpace t))).1.prevToken ∧
    (isSpace w = true →
      parse (a ++ w :: b) = parse (a ++ b) ∧
      (run ParseState.init (a ++ [w])).1.prevToken = (run ParseState.init a).1.prevToken) := by
  refine ⟨by simp only [parse, ← run_filter], by rw [← run_filter], ?_⟩
  intro hw
  have h1 : ∀ c : List tokenEntry, (a ++ w :: c).filter (fun t => !isSpace t) =
      (a ++ c).filter (fun t => !isSpace t) := by
    intro c; simp [List.filter_append, hw]
  constructor
  · simp only [parse]
    rw [run_filter _ (a ++ w :: b), h1, ← run_filter]
  · rw [run_filter _ (a ++ [w]), h1, ← run_filter, List.append_nil]

theorem buildLoop_eq (s : List Token) (l : List tokenEntry) :
    buildLoop s l = l ++ (beforeEOF s).map wrap := by
  induction s generalizing l with
  | nil => simp [buildLoop, tokenizerNext, beforeEOF]
  | cons tok s ih =>
    by_cases h : tok.typ = ScannerTokenType.TokenEOF
    · simp [buildLoop, tokenizerNext, beforeEOF, h]
    · simp only [buildLoop, tokenizerNext, h, if_false, ih]
      simp [beforeEOF, h, wrap, List.takeWhile_cons]

/-- Claim C20, as amended.  The queue returned by `buildList` holds, in
source order, exactly one entry for each raw token before the end marker,
white-space tokens included.  White space is dropped later: the texts that the
parser reads from the queue are those of the raw tokens before the end marker
that are not white space, and `Unmarshal` returns what `parse` returns on the
entries of those tokens. -/
theorem buildList_keeps_all (s : List Token) :
    buildList s = (beforeEOF s).map wrap ∧
    texts (buildList s) =
      ((beforeEOF s).filter
        (fun tok => decide (tok.typ ≠ ScannerTokenType.TokenS))).map (fun tok => tok.value) ∧
    Unmarshal s =
      parse (((beforeEOF s).filter
        (fun tok => decide (tok.typ ≠ ScannerTokenType.TokenS))).map wrap) := by
  have h : buildList s = (beforeEOF s).map wrap := by
    simp [buildList, buildLoop_eq]
  refine ⟨h, ?_, ?_⟩
  · rw [h]
    simp [texts, List.filter_map, isSpace, wrap, Function.comp_def]
  · unfold Unmarshal
    rw [h]
    simp only [parse]
    rw [run_filter]
    simp [List.filter_map, isSpace, wrap, Function.comp_def]

/-- Claim C20 as stated fails.  For the raw tokens of `a b` the queue has three
entries, one of them for the white-space token, although only two raw tokens
before the end marker are not white space. -/
theorem buildList_counterexample :
    buildList exSource =
      [mkEntry ScannerTokenType.TokenIdent 1 "a", mkEntry ScannerTokenType.TokenS 1 " ",
       mkEntry ScannerTokenType.TokenIdent 1 "b"] ∧
    (buildList exSource).length = 3 ∧
    (exSource.filter (fun tok => decide (tok.typ ≠ ScannerTokenType.TokenS ∧
      tok.typ ≠ ScannerTokenType.TokenEOF))).length = 2 ∧
    mkEntry ScannerTokenType.TokenS 1 " " ∈ buildList exSource := by
  decide

/-- Claim C14 at `a { x: 1; }` with a white-space token inserted after the
first token. -/
theorem whitespace_insensitive_witness :
    parse (exSingle.take 1 ++ mkEntry ScannerTokenType.TokenS 1 "\n" :: exSingle.drop 1) =
      parse (exSingle.take 1 ++ exSingle.drop 1) ∧
    (run ParseState.init (exSingle.take 1 ++ [mkEntry ScannerTokenType.TokenS 1 "\n"])).1.prevToken =
      (run ParseState.init (exSingle.take 1)).1.prevToken :=
  (whitespace_insensitive exSingle (exSingle.take 1) (exSingle.drop 1)
    (mkEntry ScannerTokenType.TokenS 1 "\n")).2.2 (by decide)

/-! ## Unterminated blocks -/

theorem newTokenType_dot : newTokenType "." = tokenType.tokenSelector := by decide

theorem newTokenType_hash : newTokenType "#" = tokenType.tokenSelector := by decide

/-- The state reached by a run that does not fail. -/
theorem run_eq_of_ok (st : ParseState) (P : List tokenEntry) (h : (run st P).2 = none) :
    run st P = ((run st P).1, none) := by
  rw [← h]

/-- Claim C11.  If `T` parses without error and has no non-white-space token
or ends with `}`, then `T` followed by tokens with the texts `s { p : v ;` of
an unterminated block parses without error to exactly the stylesheet of `T`.
Moreover, if `a ++ b` parses without error, so does its prefix `a`. -/
theorem unterminated_block_no_error (T l a b : List tokenEntry) (s p v : String)
    (hT : (parse T).2 = none)
    (hend : texts T = [] ∨ (texts T).getLast? = some "\x7d")
    (hs : newTokenType s = tokenType.tokenValue)
    (hp : newTokenType p = tokenType.tokenValue)
    (hv : newTokenType v = tokenType.tokenValue)
    (hp0 : p ≠ "") (hv0 : v ≠ "")
    (hl : texts l = [s, "\x7b", p, ":", v, ";"]) :
    parse (T ++ l) = ((parse T).1, none) ∧
    ((parse (a ++ b)).2 = none → (parse a).2 = none) := by
  constructor
  · simp only [parse] at hT ⊢
    have h0 := run_eq_of_ok _ _ hT
    have hok := run_heapOk T _ h0
    have hprev := run_prevToken T _ h0
    have hk : (run ParseState.init T).1.prevToken = tokenType.tokenFirstToken ∨
        (run ParseState.init T).1.prevToken = tokenType.tokenBlockEnd := by
      rw [hprev]
      rcases hend with h | h
      · left; simp [lastKind, h]
      · right; simp [lastKind, h, newTokenType_rbrace]
    have hrun : ∃ st1, runTexts (run ParseState.init T).1 (texts l) = some st1 ∧
        st1.output = (run ParseState.init T).1.output := by
      rw [hl]
      rcases hk with hk | hk
      all_goals
        simp [runTexts, step, mkEntry, tokenEntry.typ, hs, hp, hv, hp0, hv0, hk,
          newTokenType_lbrace, newTokenType_colon, newTokenType_semi, ParseState.output]
        exact resolve_set _ _ _ _ (fun e he => Nat.ne_of_lt (hok.2 e he))
    obtain ⟨st1, h1, h2⟩ := hrun
    rw [run_append_ok _ _ T l h0, run_of_runTexts l _ _ h1, h2]
  · intro h
    simp only [parse] at h ⊢
    cases ha : (run ParseState.init a).2 with
    | none => rfl
    | some e => rw [run_append_error _ a b e ha, ha] at h; exact absurd h (by simp)

/-- Claim C11 at `T = a { x: 1; }` followed by the unterminated `b { y: 2;`. -/
theorem unterminated_block_no_error_witness :
    (parse exSingle).2 = none ∧
    parse (exSingle ++ exOpenBlock) = ([("a", [("x", "1")])], none) ∧
    ((parse (exSingle ++ exOpenBlock)).2 = none → (parse exSingle).2 = none) :=
  ⟨by decide,
   (unterminated_block_no_error exSingle exOpenBlock exSingle exOpenBlock "b" "y" "2"
     (by decide) (by decide) (by decide) (by decide) (by decide) (by decide) (by decide)
     (by decide)).1,
   (unterminated_block_no_error exSingle exOpenBlock exSingle exOpenBlock "b" "y" "2"
     (by decide) (by decide) (by decide) (by decide) (by decide) (by decide) (by decide)
     (by decide)).2⟩

/-! ## Selectors -/

/-- Claim C15.  For a marker `m` (`.` or `#`), a Value text `n` and non-empty
Value texts `p`, `v`, tokens with the texts `m n { p : v ; }` parse without
error into the stylesheet with the single rule `m ++ n`, mapped to exactly
`{p: v}`; that rule is a class for `.` and an id for `#`.  In general, after
any error-free `P`, a marker token `t` directly followed by a Value token `u`
appends exactly `t.value ++ u.value` to the pending selectors. -/
theorem marker_concat (m n p v : String) (l P : List tokenEntry) (t u : tokenEntry)
    (hm : m = "." ∨ m = "#")
    (hn : newTokenType n = tokenType.tokenValue)
    (hp : newTokenType p = tokenType.tokenValue)
    (hv : newTokenType v = tokenType.tokenValue)
    (hp0 : p ≠ "") (hv0 : v ≠ "")
    (hl : texts l = [m, n, "\x7b", p, ":", v, ";", "\x7d"])
    (hP : (parse P).2 = none)
    (ht : isSpace t = false) (htk : t.typ = tokenType.tokenSelector)
    (hu : isSpace u = false) (huk : u.typ = tokenType.tokenValue) :
    parse l = ([(m ++ n, [(p, v)])], none) ∧
    (m = "." → RuleType (m ++ n) = "class") ∧
    (m = "#" → RuleType (m ++ n) = "id") ∧
    (parse (P ++ [t, u])).2 = none ∧
    (run ParseState.init (P ++ [t, u])).1.rule =
      (run ParseState.init P).1.rule ++ [t.value ++ u.value] := by
  have hmk : newTokenType m = tokenType.tokenSelector := by
    rcases hm with h | h <;> rw [h]
    · exact newTokenType_dot
    · exact newTokenType_hash
  have h : runTexts ParseState.init (texts l) = some
      { rule := [m ++ n], style := "", value := "", selector := m, isBlock := false,
        css := [(m ++ n, 0)], styles := 1, heap := [[(p, v)], []],
        prevToken := tokenType.tokenBlockEnd } := by
    rw [hl]
    simp [runTexts, step, mkEntry, tokenEntry.typ, hmk, hn, hp, hv, hp0, hv0, ParseState.init,
      newTokenType_lbrace, newTokenType_rbrace, newTokenType_colon, newTokenType_semi,
      closeRule, mapGet, mapSet, deref]
  refine ⟨by simp [parse, run_of_runTexts l _ _ h, ParseState.output, resolve, deref],
    ?_, ?_, ?_⟩
  · intro h1
    have : startsWith (m ++ n) "." = true := (startsWith_iff _ _).mpr ⟨n, by rw [h1]⟩
    simp [RuleType, this]
  · intro h1
    have h2 : startsWith (m ++ n) "#" = true := (startsWith_iff _ _).mpr ⟨n, by rw [h1]⟩
    have h3 : startsWith (m ++ n) "." = false := by
      rw [h1]
      cases h4 : startsWith ("#" ++ n) "." with
      | false => rfl
      | true =>
        obtain ⟨r, hr⟩ := (startsWith_iff _ _).mp h4
        have := congrArg String.data hr
        simp at this
    simp [RuleType, h2, h3]
  · simp only [parse] at hP ⊢
    have h0 := run_eq_of_ok _ _ hP
    have hts : t.token.typ ≠ ScannerTokenType.TokenS := by simpa [isSpace] using ht
    have hus : u.token.typ ≠ ScannerTokenType.TokenS := by simpa [isSpace] using hu
    rw [run_append_ok _ _ P _ h0]
    simp only [run, hts, hus, if_false, step_selector _ t htk]
    rw [step_value _ u huk]
    simp

/-- Claim C17.  For distinct Value texts `s`, `w` and non-empty Value texts
`p`, `v`, tokens with the texts `s { p : v w ; }` parse without error into the
stylesheet with exactly the rules `s` and `w`, each mapped to exactly `{p: v}`.
In general a Value token `u` directly after an accepted Value token `t` is
accepted, appends `u.value` to the pending selectors and leaves the pending
property name and value alone. -/
theorem value_after_value (s w p v : String) (l P : List tokenEntry) (t u : tokenEntry)
    (hs : newTokenType s = tokenType.tokenValue)
    (hw : newTokenType w = tokenType.tokenValue)
    (hne : s ≠ w)
    (hp : newTokenType p = tokenType.tokenValue)
    (hv : newTokenType v = tokenType.tokenValue)
    (hp0 : p ≠ "") (hv0 : v ≠ "")
    (hl : texts l = [s, "\x7b", p, ":", v, w, ";", "\x7d"])
    (hP : (parse (P ++ [t])).2 = none)
    (ht : isSpace t = false) (htk : t.typ = tokenType.tokenValue)
    (hu : isSpace u = false) (huk : u.typ = tokenType.tokenValue) :
    parse l = ([(s, [(p, v)]), (w, [(p, v)])], none) ∧
    (parse (P ++ [t] ++ [u])).2 = none ∧
    (run ParseState.init (P ++ [t] ++ [u])).1.rule =
      (run ParseState.init (P ++ [t])).1.rule ++ [u.value] ∧
    (run ParseState.init (P ++ [t] ++ [u])).1.style = (run ParseState.init (P ++ [t])).1.style ∧
    (run ParseState.init (P ++ [t] ++ [u])).1.value =
      (run ParseState.init (P ++ [t])).1.value := by
  have h : runTexts ParseState.init (texts l) = some
      { rule := [s, w], style := "", value := "", selector := "", isBlock := false,
        css := [(s, 0), (w, 0)], styles := 1, heap := [[(p, v)], []],
        prevToken := tokenType.tokenBlockEnd } := by
    rw [hl]
    simp [runTexts, step, mkEntry, tokenEntry.typ, hs, hw, hne, hp, hv, hp0, hv0,
      ParseState.init, newTokenType_lbrace, newTokenType_rbrace, newTokenType_colon,
      newTokenType_semi, closeRule, mapGet, mapSet, deref]
  refine ⟨by simp [parse, run_of_runTexts l _ _ h, ParseState.output, resolve, deref], ?_⟩
  simp only [parse] at hP ⊢
  have h0 := run_eq_of_ok _ _ hP
  have hprev := run_prevToken _ _ h0
  rw [texts_append, texts_single, ht] at hprev
  simp only [Bool.false_eq_true, if_false, lastKind_concat] at hprev
  have htk1 : newTokenType t.value = tokenType.tokenValue := htk
  rw [htk1] at hprev
  have hus : u.token.typ ≠ ScannerTokenType.TokenS := by simpa [isSpace] using hu
  rw [run_append_ok _ _ (P ++ [t]) _ h0]
  simp only [run, hus, if_false]
  rw [step_value _ u huk]
  simp [hprev]

/-- Claim C15 at `.foo { x: 1; }`, and at `#` followed by `bar` after
`a { x: 1; }`. -/
theorem marker_concat_witness :
    parse exClass = ([(".foo", [("x", "1")])], none) ∧
    RuleType ("." ++ "foo") = "class" ∧
    (run ParseState.init (exSingle ++ [mkEntry ScannerTokenType.TokenChar 2 "#",
      mkEntry ScannerTokenType.TokenIdent 2 "bar"])).1.rule =
      (run ParseState.init exSingle).1.rule ++ ["#" ++ "bar"] :=
  ⟨(marker_concat "." "foo" "x" "1" exClass exSingle
      (mkEntry ScannerTokenType.TokenChar 2 "#") (mkEntry ScannerTokenType.TokenIdent 2 "bar")
      (by decide) (by decide) (by decide) (by decide) (by decide) (by decide) (by decide)
      (by decide) (by decide) (by decide) (by decide) (by decide)).1,
   (marker_concat "." "foo" "x" "1" exClass exSingle
      (mkEntry ScannerTokenType.TokenChar 2 "#") (mkEntry ScannerTokenType.TokenIdent 2 "bar")
      (by decide) (by decide) (by decide) (by decide) (by decide) (by decide) (by decide)
      (by decide) (by decide) (by decide) (by decide) (by decide)).2.1 rfl,
   (marker_concat "." "foo" "x" "1" exClass exSingle
      (mkEntry ScannerTokenType.TokenChar 2 "#") (mkEntry ScannerTokenType.TokenIdent 2 "bar")
      (by decide) (by decide) (by decide) (by decide) (by decide) (by decide) (by decide)
      (by decide) (by decide) (by decide) (by decide) (by decide)).2.2.2.2⟩

/-- Claim C17 at `a { margin: 0 auto; }`, and at the two Value tokens `a b`. -/
theorem value_after_value_witness :
    parse exTwoValues = ([("a", [("margin", "0")]), ("auto", [("margin", "0")])], none) ∧
    (parse ([] ++ [mkEntry ScannerTokenType.TokenIdent 1 "a"] ++
      [mkEntry ScannerTokenType.TokenIdent 1 "b"])).2 = none :=
  ⟨(value_after_value "a" "auto" "margin" "0" exTwoValues []
      (mkEntry ScannerTokenType.TokenIdent 1 "a") (mkEntry ScannerTokenType.TokenIdent 1 "b")
      (by decide) (by decide) (by decide) (by decide) (by decide) (by decide) (by decide)
      (by decide) (by decide) (by decide) (by decide) (by decide) (by decide)).1,
   (value_after_value "a" "auto" "margin" "0" exTwoValues []
      (mkEntry ScannerTokenType.TokenIdent 1 "a") (mkEntry ScannerTokenType.TokenIdent 1 "b")
      (by decide) (by decide) (by decide) (by decide) (by decide) (by decide) (by decide)
      (by decide) (by decide) (by decide) (by decide) (by decide) (by decide)).2.1⟩

/-! ## Declarations of one block -/

/-- The stylesheet after the block-end loop: every pending rule refers to the
object `styles`, the other rules keep their reference. -/
theorem mapGet_closeRule_fold (styles : Nat) (rule : List String) (css : List (String × Nat))
    (heap : List StyleMap) (q : String) :
    mapGet (rule.foldl (closeRule styles) (css, heap)).1 q =
      if q ∈ rule then some styles else mapGet css q := by
  induction rule generalizing css heap with
  | nil => simp
  | cons r rule ih =>
    simp only [List.foldl_cons]
    have e : closeRule styles (css, heap) r =
        ((closeRule styles (css, heap) r).1, (closeRule styles (css, heap) r).2) := rfl
    rw [e, ih]
    have e1 : (closeRule styles (css, heap) r).1 = mapSet css r styles := rfl
    rw [e1, mapGet_mapSet]
    by_cases h1 : q ∈ rule
    · simp [h1]
    · by_cases h2 : r = q
      · simp [h2]
      · have : ¬ q = r := fun hc => h2 hc.symm
        simp [h1, h2, this]

/-- The block-end loop never overwrites a property that the object `styles`
already holds. -/
theorem closeRule_fold_keeps (styles : Nat) (rule : List String) (css : List (String × Nat))
    (heap : List StyleMap) (q v : String) (hh : styles < heap.length)
    (hq : mapGet (deref heap styles) q = some v) :
    mapGet (deref (rule.foldl (closeRule styles) (css, heap)).2 styles) q = some v := by
  induction rule generalizing css heap with
  | nil => simpa using hq
  | cons r rule ih =>
    simp only [List.foldl_cons]
    have e : closeRule styles (css, heap) r =
        ((closeRule styles (css, heap) r).1, (closeRule styles (css, heap) r).2) := rfl
    rw [e]
    apply ih
    · unfold closeRule
      simp only
      split <;> simp [hh]
    · unfold closeRule
      simp only
      split
      · rw [deref_set_self _ _ _ hh, mapGet_mergeInto, hq]
      · exact hq

theorem mapGet_resolve (heap : List StyleMap) (css : List (String × Nat)) (q : String) :
    mapGet (resolve heap css) q = (mapGet css q).map (deref heap) := by
  unfold resolve
  induction css with
  | nil => rfl
  | cons a css ih =>
    obtain ⟨k, r⟩ := a
    simp only [List.map_cons, mapGet]
    split_ifs
    · rfl
    · exact ih

theorem deref_append (heap extra : List StyleMap) (i : Nat) (h : i < heap.length) :
    deref (heap ++ extra) i = deref heap i := by
  simp [deref, List.getElem?_append_left h]

/-- Claim C16.  For a Value text `s` and non-empty Value texts `p`, `v1`, `v2`,
tokens with the texts `s { p : v1 ; p : v2 ; }` parse without error into the
stylesheet that maps `s` to exactly `{p: v2}`.  For a list `D` of well-formed
declarations the single block `s { D }` gives the single rule `s`, whose style
map has unique keys and maps each property to the value of its last
declaration in `D` and nothing else; and after any error-free `T` that is
empty or ends with `}`, the block `s { D }` is accepted and the style map
committed for `s` maps each property declared in `D` to the value of its last
declaration in `D`. -/
theorem last_write_wins (s p v1 v2 : String) (D : List (String × String))
    (l1 l2 T : List tokenEntry)
    (hs : newTokenType s = tokenType.tokenValue)
    (hp : newTokenType p = tokenType.tokenValue)
    (hv1 : newTokenType v1 = tokenType.tokenValue)
    (hv2 : newTokenType v2 = tokenType.tokenValue)
    (hp0 : p ≠ "") (hv10 : v1 ≠ "") (hv20 : v2 ≠ "")
    (hl1 : texts l1 = [s, "\x7b", p, ":", v1, ";", p, ":", v2, ";", "\x7d"])
    (hD : ∀ d ∈ D, wellFormedDecl d = true)
    (hl2 : texts l2 = s :: "\x7b" :: (declTexts D ++ ["\x7d"]))
    (hT : (parse T).2 = none)
    (hend : texts T = [] ∨ (texts T).getLast? = some "\x7d") :
    parse l1 = ([(s, [(p, v2)])], none) ∧
    (∃ m, parse l2 = ([(s, m)], none) ∧ (mapKeys m).Nodup ∧ ∀ q, mapGet m q = lastDecl D q) ∧
    ((parse (T ++ l2)).2 = none ∧
      ∃ m, mapGet (parse (T ++ l2)).1 s = some m ∧
        ∀ q v, lastDecl D q = some v → mapGet m q = some v) := by
  refine ⟨?_, ?_, ?_⟩
  · have h : runTexts ParseState.init (texts l1) = some
        { rule := [s], style := "", value := "", selector := "", isBlock := false,
          css := [(s, 0)], styles := 1, heap := [[(p, v2)], []],
          prevToken := tokenType.tokenBlockEnd } := by
      rw [hl1]
      simp [runTexts, step, mkEntry, tokenEntry.typ, hs, hp, hv1, hv2, hp0, hv10, hv20,
        ParseState.init, newTokenType_lbrace, newTokenType_rbrace, newTokenType_colon,
        newTokenType_semi, closeRule, mapGet, mapSet, deref]
    simp [parse, run_of_runTexts l1 _ _ h, ParseState.output, resolve, deref]
  · have hrun : ∃ st, runTexts ParseState.init (texts l2) = some st ∧
        st.output = [(s, D.foldl (fun acc d => mapSet acc d.1 d.2) [])] := by
      rw [hl2]
      have e1 : ∀ rest, runTexts ParseState.init (s :: "\x7b" :: rest) =
          runTexts
            { rule := [s], style := "", value := "", selector := "", isBlock := true,
              css := [], styles := 0, heap := [[]],
              prevToken := tokenType.tokenBlockStart } rest := by
        intro rest
        simp [runTexts, step, mkEntry, tokenEntry.typ, hs, ParseState.init,
          newTokenType_lbrace]
      rw [e1]
      obtain ⟨a1, b1, k1, _, e2⟩ := runTexts_decls D
        { rule := [s], style := "", value := "", selector := "", isBlock := true,
          css := [], styles := 0, heap := [[]],
          prevToken := tokenType.tokenBlockStart }
        ["\x7d"] hD (Or.inl rfl) (by simp)
      rw [e2]
      simp [runTexts, step, mkEntry, tokenEntry.typ, newTokenType_rbrace, closeRule, mapGet,
        mapSet, deref, ParseState.output, resolve]
    obtain ⟨st, h1, h2⟩ := hrun
    have h3 := run_of_runTexts l2 _ _ h1
    refine ⟨D.foldl (fun acc d => mapSet acc d.1 d.2) [], by simp only [parse, h3, h2],
      foldl_mapSet_nodup _ _ (by simp [mapKeys]), ?_⟩
    intro q
    rw [mapGet_foldl_mapSet]
    cases lastDecl D q <;> simp [mapGet]
  · simp only [parse] at hT ⊢
    have h0 := run_eq_of_ok _ _ hT
    have hok := run_heapOk T _ h0
    have hprev := run_prevToken T _ h0
    have hk : (run ParseState.init T).1.prevToken = tokenType.tokenFirstToken ∨
        (run ParseState.init T).1.prevToken = tokenType.tokenBlockEnd := by
      rw [hprev]
      rcases hend with h | h
      · left; simp [lastKind, h]
      · right; simp [lastKind, h, newTokenType_rbrace]
    generalize (run ParseState.init T).1 = st0 at h0 hok hprev hk
    have e1 : ∀ rest, runTexts st0 (s :: "\x7b" :: rest) =
        runTexts
          { rule := st0.rule ++ [s], style := st0.style, value := st0.value,
            selector := st0.selector, isBlock := true,
            css := st0.css, styles := st0.styles, heap := st0.heap,
            prevToken := tokenType.tokenBlockStart } rest := by
      intro rest
      rcases hk with hk | hk <;>
        simp [runTexts, step, mkEntry, tokenEntry.typ, hs, hk, newTokenType_lbrace]
    obtain ⟨a1, b1, k1, _, e2⟩ := runTexts_decls D
      { rule := st0.rule ++ [s], style := st0.style, value := st0.value,
        selector := st0.selector, isBlock := true,
        css := st0.css, styles := st0.styles, heap := st0.heap,
        prevToken := tokenType.tokenBlockStart }
      ["\x7d"] hD (Or.inl rfl) hok.1
    have hlen : st0.styles < (st0.heap.set st0.styles
        (D.foldl (fun acc d => mapSet acc d.1 d.2) (deref st0.heap st0.styles))).length := by
      simpa using hok.1
    have hfl := closeRule_fold st0.styles (st0.rule ++ [s]) st0.css
      (st0.heap.set st0.styles
        (D.foldl (fun acc d => mapSet acc d.1 d.2) (deref st0.heap st0.styles)))
    have hrun : ∃ st, runTexts st0 (texts l2) = some st ∧
        ∃ m, mapGet st.output s = some m ∧
          ∀ q v, lastDecl D q = some v → mapGet m q = some v := by
      rw [hl2, e1, e2]
      simp only [runTexts, step, mkEntry, tokenEntry.typ, newTokenType_rbrace,
        Bool.not_true, Bool.false_eq_true, if_false, Option.some.injEq, exists_eq_left',
        ParseState.output]
      rw [mapGet_resolve, mapGet_closeRule_fold]
      simp only [List.mem_append, List.mem_singleton, or_true, if_true, Option.map_some',
        Option.some.injEq, exists_eq_left']
      intro q v hq
      rw [deref_append _ _ _ (by rw [hfl.1]; exact hlen)]
      apply closeRule_fold_keeps _ _ _ _ _ _ hlen
      rw [deref_set_self _ _ _ hok.1, mapGet_foldl_mapSet, hq]
    obtain ⟨st, h1, h2⟩ := hrun
    rw [run_append_ok _ _ T l2 h0, run_of_runTexts l2 _ _ h1]
    exact ⟨rfl, h2⟩

/-- Claim C16 at `a { x: 1; x: 2; }`, alone and after `a { x: 1; }`. -/
theorem last_write_wins_witness :
    parse exOverwrite = ([("a", [("x", "2")])], none) ∧
    (parse (exSingle ++ exOverwrite)).2 = none ∧
    ∃ m, mapGet (parse (exSingle ++ exOverwrite)).1 "a" = some m ∧
      ∀ q v, lastDecl [("x", "1"), ("x", "2")] q = some v → mapGet m q = some v :=
  ⟨(last_write_wins "a" "x" "1" "2" [("x", "1"), ("x", "2")] exOverwrite exOverwrite exSingle
      (by decide) (by decide) (by decide) (by decide) (by decide) (by decide) (by decide)
      (by decide) (by decide) (by decide) (by decide) (by decide)).1,
   (last_write_wins "a" "x" "1" "2" [("x", "1"), ("x", "2")] exOverwrite exOverwrite exSingle
      (by decide) (by decide) (by decide) (by decide) (by decide) (by decide) (by decide)
      (by decide) (by decide) (by decide) (by decide) (by decide)).2.2⟩

/-! ## Reachable errors -/

/-- The state returned by the loop is reached by a prefix of the input that
runs without error; if the loop fails, it fails on the token after that
prefix. -/
theorem run_state_prefix (st0 : ParseState) (l : List tokenEntry) :
    ∃ P S, l = P ++ S ∧ run st0 P = ((run st0 l).1, none) ∧
      ((run st0 l).2 = none ∨
        ∃ t S1 e, S = t :: S1 ∧ isSpace t = false ∧ step (run st0 l).1 t = .error e ∧
          (run st0 l).2 = some e) := by
  induction l generalizing st0 with
  | nil => exact ⟨[], [], rfl, rfl, Or.inl rfl⟩
  | cons t l ih =>
    by_cases hs : t.token.typ = ScannerTokenType.TokenS
    · obtain ⟨P, S, h1, h2, h3⟩ := ih st0
      refine ⟨t :: P, S, by rw [h1]; rfl, ?_, ?_⟩
      · simpa [run, hs] using h2
      · simpa [run, hs] using h3
    · cases hst : step st0 t with
      | error e =>
        refine ⟨[], t :: l, rfl, by simp [run, hs, hst], Or.inr ⟨t, l, e, rfl, ?_, ?_, ?_⟩⟩
        · simp [isSpace, hs]
        · simp [run, hs, hst]
        · simp [run, hs, hst]
      | ok s1 =>
        obtain ⟨P, S, h1, h2, h3⟩ := ih s1
        refine ⟨t :: P, S, by rw [h1]; rfl, ?_, ?_⟩
        · simpa [run, hs, hst] using h2
        · simpa [run, hs, hst] using h3

theorem lastKind_mem_prevKinds (vs : List String) : lastKind vs ∈ prevKinds := by
  unfold lastKind
  cases vs.getLast? with
  | none => simp [prevKinds]
  | some v =>
    rcases newTokenType_cases v with h | h | h | h | h | h <;> simp [h, prevKinds]

theorem run_prevToken_mem (l : List tokenEntry) :
    (run ParseState.init l).1.prevToken ∈ prevKinds := by
  obtain ⟨P, S, _, h, _⟩ := run_state_prefix ParseState.init l
  rw [run_prevToken P _ h]
  exact lastKind_mem_prevKinds _

/-- In a state whose previous kind is not `tokenRuleName` no step fails with
"invalid syntax". -/
theorem step_error_reachable (st : ParseState) (t : tokenEntry) (e : String)
    (hprev : st.prevToken ≠ tokenType.tokenRuleName) (h : step st t = .error e) :
    ∃ msg, msg ∈ reachableMessages ∧ e = lineError t.token.line msg := by
  rcases newTokenType_cases t.value with hk | hk | hk | hk | hk | hk
  · rw [step_blockStart st t hk] at h
    split_ifs at h
    exact ⟨"block is missing rule identifier", by simp [reachableMessages],
      by simpa using h.symm⟩
  · rw [step_blockEnd st t hk] at h
    split_ifs at h
    exact ⟨"rule block ends without a beginning", by simp [reachableMessages],
      by simpa using h.symm⟩
  · rw [step_styleSeparator st t hk] at h
    simp at h
  · rw [step_statementEnd st t hk] at h
    split_ifs at h
    exact ⟨"expected style before semicolon", by simp [reachableMessages],
      by simpa using h.symm⟩
  · rw [step_selector st t hk] at h
    simp at h
  · rw [step_value st t hk] at h
    cases hp : st.prevToken <;> simp [hp] at h
    exact absurd hp hprev

/-- The last character of an error text is the last character of its message. -/
theorem lineError_getLast? (n : Int) (msg : String) (h : msg.data ≠ []) :
    (lineError n msg).data.getLast? = msg.data.getLast? := by
  unfold lineError
  rw [String.data_append, List.getLast?_append]
  cases hm : msg.data.getLast? with
  | none => rw [List.getLast?_eq_none_iff] at hm; exact absurd hm h
  | some c => rfl

theorem lineError_ne_invalid (n k : Int) (msg : String) (h : msg ∈ reachableMessages) :
    lineError n msg ≠ lineError k "invalid syntax" := by
  intro hc
  have h1 := congrArg (fun s => s.data.getLast?) hc
  simp only at h1
  rw [lineError_getLast? k _ (by decide)] at h1
  simp only [reachableMessages, List.mem_cons, List.mem_singleton, List.not_mem_nil,
    or_false] at h
  rcases h with h | h | h <;> subst h <;>
    rw [lineError_getLast? n _ (by decide)] at h1 <;> revert h1 <;> decide

/-- Claim C19.  `parse` never returns the error "invalid syntax", whatever the
line; every error it returns is `lineError` of the line of a non-white-space
token of the input and one of the three other messages.  The previous-kind
state is always one of the seven kinds of `prevKinds`, never `tokenRuleName`,
and in each of these seven states the step on a Value token succeeds. -/
theorem invalid_unreachable (l : List tokenEntry) :
    (∀ n : Int, (parse l).2 ≠ some (lineError n "invalid syntax")) ∧
    ((parse l).2 = none ∨
      ∃ t msg, t ∈ l ∧ isSpace t = false ∧ msg ∈ reachableMessages ∧
        (parse l).2 = some (lineError t.token.line msg)) ∧
    (run ParseState.init l).1.prevToken ∈ prevKinds ∧
    (run ParseState.init l).1.prevToken ≠ tokenType.tokenRuleName ∧
    (∀ (st : ParseState) (t : tokenEntry), t.typ = tokenType.tokenValue →
      st.prevToken ∈ prevKinds → ∃ st1, step st t = .ok st1) := by
  have hmem := run_prevToken_mem l
  have hne : (run ParseState.init l).1.prevToken ≠ tokenType.tokenRuleName := by
    intro hc; rw [hc] at hmem; revert hmem; decide
  have hform : (parse l).2 = none ∨
      ∃ t msg, t ∈ l ∧ isSpace t = false ∧ msg ∈ reachableMessages ∧
        (parse l).2 = some (lineError t.token.line msg) := by
    obtain ⟨P, S, h1, _, h3⟩ := run_state_prefix ParseState.init l
    rcases h3 with h3 | ⟨t, S1, e, h4, h5, h6, h7⟩
    · exact Or.inl h3
    · right
      obtain ⟨msg, hm, he⟩ := step_error_reachable _ t e hne h6
      exact ⟨t, msg, by rw [h1, h4]; simp, h5, hm, by simp only [parse]; rw [h7, he]⟩
  refine ⟨?_, hform, hmem, hne, ?_⟩
  · intro n hc
    rcases hform with h | ⟨t, msg, _, _, hm, h⟩
    · rw [h] at hc; simp at hc
    · rw [h] at hc
      exact lineError_ne_invalid _ _ _ hm (Option.some.inj hc)
  · intro st t ht hp
    rw [step_value st t ht]
    cases hk : st.prevToken <;> simp
    rw [hk] at hp; revert hp; decide

/-- Claim C19 at a Value token read in the initial state, and at the failing
input `a {\n x 1;\n}`. -/
theorem invalid_unreachable_witness :
    (∃ st1, step ParseState.init (mkEntry ScannerTokenType.TokenIdent 1 "a") = .ok st1) ∧
    (parse exMissingColon).2 ≠ some (lineError 2 "invalid syntax") :=
  ⟨(invalid_unreachable []).2.2.2.2 ParseState.init
      (mkEntry ScannerTokenType.TokenIdent 1 "a") (by decide) (by decide),
   (invalid_unreachable exMissingColon).1 2⟩

/-! ## The rules share one style map -/

theorem mem_mapKeys_iff {β : Type} (m : List (String × β)) (k : String) :
    k ∈ mapKeys m ↔ ∃ v, mapGet m k = some v := by
  induction m with
  | nil => simp [mapKeys, mapGet]
  | cons a m ih =>
    obtain ⟨a1, a2⟩ := a
    simp only [mapKeys, List.map_cons, List.mem_cons, mapGet] at ih ⊢
    by_cases h : a1 = k
    · simp [h]
    · have h1 : ¬ k = a1 := fun hc => h hc.symm
      simp [h, h1, ih]

theorem mapKeys_resolve (heap : List StyleMap) (css : List (String × Nat)) :
    mapKeys (resolve heap css) = mapKeys css := by
  simp [mapKeys, resolve, Function.comp_def]

/-- A successful step keeps the stylesheet unless the token is `}`, and only
ever appends to the pending selectors. -/
theorem step_css_rule (st st1 : ParseState) (t : tokenEntry) (h : step st t = .ok st1) :
    st.rule <+: st1.rule ∧ (t.value ≠ "\x7d" → st1.css = st.css) := by
  rcases newTokenType_cases t.value with hk | hk | hk | hk | hk | hk
  · rw [step_blockStart st t hk] at h
    split_ifs at h
    simp only [Except.ok.injEq] at h
    simp [← h]
  · rw [step_blockEnd st t hk] at h
    split_ifs at h
    simp only [Except.ok.injEq] at h
    have := (newTokenType_eq_blockEnd _).mp hk
    simp [← h, this]
  · rw [step_styleSeparator st t hk] at h
    simp only [Except.ok.injEq] at h
    simp [← h]
  · rw [step_statementEnd st t hk] at h
    split_ifs at h
    simp only [Except.ok.injEq] at h
    simp [← h]
  · rw [step_selector st t hk] at h
    simp only [Except.ok.injEq] at h
    simp [← h]
  · rw [step_value st t hk] at h
    cases hp : st.prevToken <;> simp [hp] at h <;> simp [← h]

theorem step_ruleInv (st st1 : ParseState) (t : tokenEntry) (h : step st t = .ok st1)
    (hst : RuleInv st) : RuleInv st1 := by
  by_cases hv : t.value = "\x7d"
  · have hk : t.typ = tokenType.tokenBlockEnd := (newTokenType_eq_blockEnd _).mpr hv
    rw [step_blockEnd st t hk] at h
    split_ifs at h
    simp only [Except.ok.injEq] at h
    have key : ∀ q ref, mapGet st1.css q = some ref → q ∈ st.rule ∧ ref = st.styles := by
      intro q ref hq
      rw [← h] at hq
      simp only [mapGet_closeRule_fold] at hq
      split_ifs at hq with hm
      · exact ⟨hm, by simpa using hq.symm⟩
      · exact absurd (hst.1 q ref hq) hm
    constructor
    · intro q ref hq
      have := (key q ref hq).1
      rw [← h]; exact this
    · intro q1 q2 r1 r2 h1 h2
      rw [(key q1 r1 h1).2, (key q2 r2 h2).2]
  · obtain ⟨hpre, hcss⟩ := step_css_rule st st1 t h
    have hc := hcss hv
    constructor
    · intro q ref hq
      rw [hc] at hq
      exact hpre.subset (hst.1 q ref hq)
    · intro q1 q2 r1 r2 h1 h2
      rw [hc] at h1 h2
      exact hst.2 q1 q2 r1 r2 h1 h2

theorem run_ruleInv (st : ParseState) (l : List tokenEntry) (hst : RuleInv st) :
    RuleInv (run st l).1 := by
  induction l generalizing st with
  | nil => exact hst
  | cons t l ih =>
    by_cases hs : t.token.typ = ScannerTokenType.TokenS
    · simp only [run, hs, if_true]; exact ih st hst
    · simp only [run, hs, if_false]
      cases hstep : step st t with
      | error e => exact hst
      | ok s1 => exact ih s1 (step_ruleInv st s1 t hstep hst)

theorem run_rule_prefix (st : ParseState) (l : List tokenEntry) :
    st.rule <+: (run st l).1.rule := by
  induction l generalizing st with
  | nil => exact List.prefix_refl _
  | cons t l ih =>
    by_cases hs : t.token.typ = ScannerTokenType.TokenS
    · simp only [run, hs, if_true]; exact ih st
    · simp only [run, hs, if_false]
      cases hstep : step st t with
      | error e => exact List.prefix_refl _
      | ok s1 => exact (step_css_rule st s1 t hstep).1.trans (ih s1)

theorem ruleInv_init : RuleInv ParseState.init := by
  constructor <;> intro <;> simp [ParseState.init, mapGet]

/-- Claim C18.  In the stylesheet returned for `l`, with or without an error,
any two keys are mapped to equal style maps.  Its key set is the set of the
selectors pending at the last accepted `}`: `l` splits as `P ++ S` where `P`
parses without error and is empty or ends with a `}`, no `}` of `S` is
accepted, and the keys are exactly the members of the pending list after `P`.
The pending list only grows: the list after `a` is a prefix of the list after
`a ++ b`. -/
theorem shared_style_map (l a b : List tokenEntry) :
    (∀ k1 k2 m1 m2, mapGet (parse l).1 k1 = some m1 → mapGet (parse l).1 k2 = some m2 →
      m1 = m2) ∧
    (∃ P S, l = P ++ S ∧ (parse P).2 = none ∧
      (P = [] ∨ ∃ P0 t, P = P0 ++ [t] ∧ isSpace t = false ∧ t.value = "\x7d") ∧
      (∀ S1 t S2, S = S1 ++ t :: S2 → isSpace t = false → t.value = "\x7d" →
        (parse (P ++ S1 ++ [t])).2 ≠ none) ∧
      ∀ k, k ∈ mapKeys (parse l).1 ↔ k ∈ (run ParseState.init P).1.rule) ∧
    (run ParseState.init a).1.rule <+: (run ParseState.init (a ++ b)).1.rule := by
  refine ⟨?_, ?_, ?_⟩
  · intro k1 k2 m1 m2 h1 h2
    have hinv := run_ruleInv ParseState.init l ruleInv_init
    simp only [parse, ParseState.output, mapGet_resolve] at h1 h2
    cases hr1 : mapGet (run ParseState.init l).1.css k1 with
    | none => simp [hr1] at h1
    | some r1 =>
      cases hr2 : mapGet (run ParseState.init l).1.css k2 with
      | none => simp [hr2] at h2
      | some r2 =>
        rw [hr1] at h1; rw [hr2] at h2
        simp only [Option.map_some', Option.some.injEq] at h1 h2
        rw [← h1, ← h2, hinv.2 k1 k2 r1 r2 hr1 hr2]
  · obtain ⟨P, S, hl, hP, hout, hend, hlast⟩ := output_eq_last_close l
    refine ⟨P, S, hl, hP, hend, hlast, ?_⟩
    intro k
    rw [hout]
    simp only [parse, ParseState.output, mapKeys_resolve, mem_mapKeys_iff]
    rcases hend with h | ⟨P0, t, h, hs, hv⟩
    · subst h; simp [run, ParseState.init, mapGet]
    · subst h
      simp only [parse] at hP
      obtain ⟨st0, h0, h1 | h1⟩ := run_concat_ok _ _ _ _ (run_eq_of_ok _ _ hP)
      · rw [h1.1] at hs; simp at hs
      · have hinv := run_ruleInv ParseState.init P0 ruleInv_init
        rw [h0] at hinv
        have hk : t.typ = tokenType.tokenBlockEnd := (newTokenType_eq_blockEnd _).mpr hv
        have h2 := h1.2
        rw [step_blockEnd st0 t hk] at h2
        split_ifs at h2
        simp only [Except.ok.injEq] at h2
        rw [← h2]
        simp only [mapGet_closeRule_fold]
        constructor
        · rintro ⟨v, hv1⟩
          split_ifs at hv1 with hm
          · exact hm
          · exact absurd (hinv.1 k v hv1) hm
        · intro hm
          exact ⟨st0.styles, by simp [hm]⟩
  · rw [run_append]
    cases h : (run ParseState.init a).2 with
    | none => simp only []; exact run_rule_prefix _ b
    | some e => simp only []; exact List.prefix_refl _

/-- Claim C18 at `a { x: 1; } .b c { y: 2; } d {`: the three rules closed so
far share one style map. -/
theorem shared_style_map_witness :
    parse exThreeRules =
      ([("a", [("y", "2"), ("x", "1")]), (".b", [("y", "2"), ("x", "1")]),
        ("c", [("y", "2"), ("x", "1")])], none) ∧
    (run ParseState.init exThreeRules).1.rule = ["a", ".b", "c", "d"] ∧
    [("y", "2"), ("x", "1")] = [("y", "2"), ("x", "1")] :=
  ⟨by decide, by decide,
   (shared_style_map exThreeRules [] []).1 "a" ".b" _ _ (by decide) (by decide)⟩

end Css
